import Mathlib

/-!
Verification development for the dense linear-algebra library
(`src/types/matrix.h`, three concatenated variants, and
`src/unnamed/part_000`, the iterative algorithms).

Conventions of the shallow embedding:

* Machine indices (`std::size_t` / `IndexType`) become `Nat`; the signed
  `Segment` coordinates become `Int` (the sentinel is `{-1,-1}`).
* `long double` arithmetic is idealised as exact arithmetic over `ℚ`
  (or `ℝ` where `std::sqrt` is involved); IEEE NaN produced by `0/0`
  is modelled by `Option ℝ` scalars (`none` = NaN) where a claim turns
  on it.
* Out-of-range buffer reads (undefined behaviour guarded by `assert` in
  the C++) are totalised with the default element `0`; the claims are
  stated inside the asserted contracts.
* Headers absent from `src/` (`utils/is_equal_floating.h`,
  `utils/checks.h`, `givens.h`, `qr_decomposition.h`, `matrix_view.h`,
  `types_details.h`) are modelled from the specification text; each such
  definition carries a doc comment starting with `Modelled from the spec:`.
-/

/-- Tolerance used by the modelled floating comparisons.  The concrete
value is irrelevant to the development; it only has to be positive. -/
def epsTol : ℚ := 1 / 1000000000

/-- A sample value below the tolerance (`1/10^10`), used as concrete
test data. -/
def tinyQ : ℚ := 1 / 10000000000

/-- Modelled from the spec: the element-capability collaborator of §6
(`utils/is_equal_floating.h` is not under `src/`): `approximatelyEqual`
(tolerance-relative floating comparison) and `isApproximatelyZero`
(tolerance-relative zero test), as boolean predicates over the element
type. -/
class ApproxTol (α : Type) where
  IsEqualFloating : α → α → Bool
  IsZeroFloating : α → Bool

export ApproxTol (IsEqualFloating IsZeroFloating)

/-- Modelled from the spec: conjugation on the element type; the C++
applies `std::conj` only when the element type is complex, so the real
instantiation is the identity. -/
class ScalarConj (α : Type) where
  conj : α → α

instance : ScalarConj ℚ := ⟨id⟩

instance : ApproxTol ℚ where
  IsEqualFloating a b := decide (|a - b| < epsTol)
  IsZeroFloating a := decide (|a| < epsTol)

/-- Complex numbers over `ℚ` (exact stand-in for `std::complex<long double>`). -/
structure RC where
  re : ℚ
  im : ℚ
deriving DecidableEq

instance : Zero RC := ⟨⟨0, 0⟩⟩
instance : One RC := ⟨⟨1, 0⟩⟩
instance : Add RC := ⟨fun a b => ⟨a.re + b.re, a.im + b.im⟩⟩
instance : Sub RC := ⟨fun a b => ⟨a.re - b.re, a.im - b.im⟩⟩
instance : Neg RC := ⟨fun a => ⟨-a.re, -a.im⟩⟩
instance : Mul RC := ⟨fun a b => ⟨a.re * b.re - a.im * b.im, a.re * b.im + a.im * b.re⟩⟩

instance : ScalarConj RC := ⟨fun a => ⟨a.re, -a.im⟩⟩

instance : ApproxTol RC where
  IsEqualFloating a b := decide (|a.re - b.re| < epsTol ∧ |a.im - b.im| < epsTol)
  IsZeroFloating a := decide (|a.re| < epsTol ∧ |a.im| < epsTol)

/-! ## The second `Matrix` variant and `ConstMatrixView`
(`src/types/matrix.h`, lines 407-857 and 858-1189). -/

namespace LibB

/-- Half-open index range along one axis (`details::Types::Segment`;
`types_details.h` is not under `src/`, but the field types are forced by
the `{-1,-1}` sentinel and the sign tests of `MakeSegment`).  The C++
field `end` is spelled `endI`. -/
structure Segment where
  begin : Int
  endI : Int
deriving DecidableEq

/-- Transform state of a view (`details::Types::MatrixState`). -/
structure MatrixState where
  is_transposed : Bool
  is_conjugated : Bool
deriving DecidableEq

/-- Owning dense matrix, second variant (`matrix.h` lines 416-857):
stores the column count `cols_` and the row-major buffer. -/
structure Matrix (α : Type) where
  cols : Nat
  buffer : List α
deriving DecidableEq

/-- Matrix::Rows(), line 617: `buffer_.size() / cols_`, zero when `cols_ = 0`. -/
def Matrix.Rows (m : Matrix α) : Nat :=
  if m.cols = 0 then 0 else m.buffer.length / m.cols

/-- Matrix::Columns(), line 621. -/
def Matrix.Columns (m : Matrix α) : Nat := m.cols

/-- Matrix::operator()(row_idx, col_idx), line 611: reads
`buffer_[Columns() * row_idx + col_idx]`; the out-of-range case (an
`assert` in the C++) is totalised with `0`. -/
def Matrix.el [Zero α] (m : Matrix α) (i j : Nat) : α :=
  m.buffer.getD (m.Columns * i + j) 0

/-- Matrix(row_cnt, col_cnt, value) constructor, lines 433-439:
`cols_ = col_cnt`, buffer of `cols_ * row_cnt` copies of `value`, and
`cols_` is reset to `0` when `row_cnt = 0`. -/
def mkMatrix (α : Type) (r c : Nat) (v : α) : Matrix α :=
  ⟨if r = 0 then 0 else c, List.replicate (c * r) v⟩

/-- ConstMatrixView::MakeSegment, lines 1172-1182. -/
def MakeSegment (seg : Segment) (max_value : Int) : Segment :=
  let e := if seg.endI ≤ 0 ∨ seg.endI > max_value then max_value else seg.endI
  let b := if seg.begin ≥ e ∨ seg.begin ≥ max_value ∨ seg.begin < 0 then 0 else seg.begin
  ⟨b, e⟩

/-- Restatement of claim C9's description of segment normalization, used
to compare against the code's `MakeSegment`. -/
def MakeSegmentSpec (seg : Segment) (max_value : Int) : Segment :=
  let e := if seg.endI ≤ 0 ∨ seg.endI > max_value then max_value else seg.endI
  let b := if seg.begin ≥ e ∨ ¬ (0 ≤ seg.begin ∧ seg.begin < max_value) then 0 else seg.begin
  ⟨b, e⟩

/-- Read-only borrowing view (`ConstMatrixView`, lines 864-1189).  The
C++ stores a pointer `ptr_` to the borrowed `Matrix`; the embedding
stores the matrix by value (the view is read-only, so the two agree for
every in-contract program). -/
structure ConstMatrixView (α : Type) where
  ptr : Matrix α
  row : Segment
  column : Segment
  state : MatrixState
deriving DecidableEq

/-- ConstMatrixView constructor, lines 876-884: normalizes the requested
row segment against the storage's column count when `is_transposed` is
set (row count otherwise), and symmetrically for the column segment. -/
def mkConstMatrixView (m : Matrix α) (row col : Segment) (st : MatrixState) :
    ConstMatrixView α :=
  ⟨m,
   MakeSegment row (if st.is_transposed then (m.Columns : Int) else (m.Rows : Int)),
   MakeSegment col (if st.is_transposed then (m.Rows : Int) else (m.Columns : Int)),
   st⟩

/-- Matrix::View() const, line 629: full view with sentinel segments and
cleared transform state. -/
def Matrix.View (m : Matrix α) : ConstMatrixView α :=
  mkConstMatrixView m ⟨-1, -1⟩ ⟨-1, -1⟩ ⟨false, false⟩

/-- ConstMatrixView::Rows(), line 1059. -/
def ConstMatrixView.Rows (v : ConstMatrixView α) : Nat :=
  (v.row.endI - v.row.begin).toNat

/-- ConstMatrixView::Columns(), line 1063. -/
def ConstMatrixView.Columns (v : ConstMatrixView α) : Nat :=
  (v.column.endI - v.column.begin).toNat

/-- ConstMatrixView::operator()(row_idx, col_idx), lines 1035-1057: when
`is_transposed` the storage is read at `(row_.begin + col_idx,
column_.begin + row_idx)`, otherwise at `(row_.begin + row_idx,
column_.begin + col_idx)`; when `is_conjugated` (and the element type is
complex) the fetched value is conjugated.  Normalized segments have
non-negative `begin`, so `Int.toNat` is exact in contract. -/
def ConstMatrixView.el [Zero α] [ScalarConj α] (v : ConstMatrixView α)
    (i j : Nat) : α :=
  let raw :=
    if v.state.is_transposed then v.ptr.el (v.row.begin.toNat + j) (v.column.begin.toNat + i)
    else v.ptr.el (v.row.begin.toNat + i) (v.column.begin.toNat + j)
  if v.state.is_conjugated then ScalarConj.conj raw else raw

/-- Restatement of claim C2's element-read rule (the spec's mapping,
§4.1): transposed reads go to storage coordinates
`(column_segment.begin + j, row_segment.begin + i)`. -/
def ConstMatrixView.elSpec [Zero α] [ScalarConj α] (v : ConstMatrixView α)
    (i j : Nat) : α :=
  let raw :=
    if v.state.is_transposed then v.ptr.el (v.column.begin.toNat + j) (v.row.begin.toNat + i)
    else v.ptr.el (v.row.begin.toNat + i) (v.column.begin.toNat + j)
  if v.state.is_conjugated then ScalarConj.conj raw else raw

/-- static Matrix::Transposed(const ConstMatrixView&), lines 739-744:
rebuilds a view on the same storage with the two segments swapped and
only `is_transposed` inverted (through the normalizing constructor). -/
def Matrix.Transposed (rhs : ConstMatrixView α) : ConstMatrixView α :=
  mkConstMatrixView rhs.ptr rhs.column rhs.row
    ⟨!rhs.state.is_transposed, rhs.state.is_conjugated⟩

/-- static Matrix::Conjugated(const ConstMatrixView&), lines 767-772:
rebuilds a view with the segments swapped and both flags inverted. -/
def Matrix.Conjugated (rhs : ConstMatrixView α) : ConstMatrixView α :=
  mkConstMatrixView rhs.ptr rhs.column rhs.row
    ⟨!rhs.state.is_transposed, !rhs.state.is_conjugated⟩

/-- Row-major enumeration of the index pairs of an `r × c` shape, the
iteration order of `ConstMatrixView::ApplyToEach` (lines 1079-1089). -/
def indexPairs (r c : Nat) : List (Nat × Nat) :=
  (List.range r).flatMap (fun i => (List.range c).map (fun j => (i, j)))

/-- operator==(const ConstMatrixView&, const ConstMatrixView&), lines
995-1010: `false` on any shape mismatch, otherwise an `ApplyToEach` pass
that clears a flag on the first tolerance-comparison failure. -/
def ConstMatrixView.eqView [Zero α] [ScalarConj α] [ApproxTol α]
    (lhs rhs : ConstMatrixView α) : Bool :=
  if lhs.Rows ≠ rhs.Rows ∨ lhs.Columns ≠ rhs.Columns then false
  else
    (indexPairs lhs.Rows lhs.Columns).foldl
      (fun is_equal p =>
        if ¬ IsEqualFloating (lhs.el p.1 p.2) (rhs.el p.1 p.2) then false else is_equal)
      true

/-- operator==(const Matrix&, const Matrix&), lines 581-583: raw buffer
comparison (`lhs.buffer_ == rhs.buffer_`). -/
def Matrix.eqMM [DecidableEq α] (lhs rhs : Matrix α) : Bool :=
  decide (lhs.buffer = rhs.buffer)

/-- operator==(const Matrix&, const ConstMatrixView&), lines 585-587:
delegates to the view comparison on `lhs.View()`. -/
def Matrix.eqMV [Zero α] [ScalarConj α] [ApproxTol α] [DecidableEq α]
    (lhs : Matrix α) (rhs : ConstMatrixView α) : Bool :=
  lhs.View.eqView rhs

/-- Restatement of claim C4's description of equality between matrix-like
operands: equal row counts, equal column counts, and every pair of
corresponding elements equal under the tolerance comparison. -/
def eqViewSpec [Zero α] [ScalarConj α] [ApproxTol α]
    (lhs rhs : ConstMatrixView α) : Bool :=
  decide (lhs.Rows = rhs.Rows) && decide (lhs.Columns = rhs.Columns) &&
    (indexPairs lhs.Rows lhs.Columns).all
      (fun p => IsEqualFloating (lhs.el p.1 p.2) (rhs.el p.1 p.2))

/-- Matrix::RoundZeroes, lines 723-726, which rounds every element of
the owning matrix through a full mutable view.  Modelled from the spec:
`matrix_view.h` (the mutable `MatrixView::RoundZeroes`) is not under
`src/`; per §4.2 it maps every element that passes the tolerance-based
zero test to exact zero. -/
def Matrix.RoundZeroes [Zero α] [ApproxTol α] (m : Matrix α) : Matrix α :=
  ⟨m.cols, m.buffer.map (fun el => if IsZeroFloating el then 0 else el)⟩

/-- Plain left-to-right accumulation of the product entry `(i, j)`
(the inner `k` loop of lines 953-956). -/
def dotProd [Zero α] [Add α] [Mul α] [ScalarConj α]
    (lhs rhs : ConstMatrixView α) (i j : Nat) : α :=
  (List.range lhs.Columns).foldl (fun sum k => sum + lhs.el i k * rhs.el k j) 0

/-- operator*(const ConstMatrixView&, const ConstMatrixView&), lines
940-963: empty matrix when either resulting dimension is zero, otherwise
a `lhs.Rows() × rhs.Columns()` matrix of plain summed entries, passed
through `RoundZeroes()` before being returned. -/
def ConstMatrixView.mulVV [Zero α] [Add α] [Mul α] [ScalarConj α] [ApproxTol α]
    (lhs rhs : ConstMatrixView α) : Matrix α :=
  if lhs.Rows = 0 ∨ rhs.Columns = 0 then ⟨0, []⟩
  else
    let c := rhs.Columns
    (Matrix.mk c ((List.range (c * lhs.Rows)).map
      (fun idx => dotProd lhs rhs (idx / c) (idx % c)))).RoundZeroes

/-- The same product without the final `RoundZeroes()` pass; claim C10
compares the shipped product against this. -/
def ConstMatrixView.mulVVNoRound [Zero α] [Add α] [Mul α] [ScalarConj α] [ApproxTol α]
    (lhs rhs : ConstMatrixView α) : Matrix α :=
  if lhs.Rows = 0 ∨ rhs.Columns = 0 then ⟨0, []⟩
  else
    let c := rhs.Columns
    Matrix.mk c ((List.range (c * lhs.Rows)).map
      (fun idx => dotProd lhs rhs (idx / c) (idx % c)))

/-- One step of the cycle-leader walk of Matrix::Transpose, lines
694-698: the final index `last` maps to itself, every other index maps
to `(rows * current) % last`. -/
def cycleNext (rows last cur : Nat) : Nat :=
  if cur = last then last else (rows * cur) % last

/-- std::swap(buffer_[a], buffer_[b]) on a row-major buffer, totalised
with default `0` out of range (in contract both indices are in range). -/
def listSwap [Zero α] (l : List α) (a b : Nat) : List α :=
  (l.set a (l.getD b 0)).set b (l.getD a 0)

/-- The inner do-while of Matrix::Transpose, lines 695-701: advance
`cur` along the cycle, swap the element at the new position with the
element at the leader `i`, mark it visited, and stop when the cycle
closes back on `i`.  The C++ loop has no fuel; `fuel = buffer size`
is shown sufficient in the proofs. -/
def doCycle [Zero α] (rows last i : Nat) :
    Nat → List α × List Bool → Nat → List α × List Bool
  | 0, st, _ => st
  | fuel + 1, st, cur =>
    let nxt := cycleNext rows last cur
    let buf := listSwap st.1 nxt i
    let vis := st.2.set nxt true
    if nxt = i then (buf, vis) else doCycle rows last i fuel (buf, vis) nxt

/-- Matrix::Transpose, lines 685-706: in-place cycle-leader transpose.
Walks `i` from `1` to `size - 1`, skipping visited indices, runs the
cycle walk from each unvisited leader, and finally sets `cols_` to the
old row count. -/
def Matrix.Transpose [Zero α] (m : Matrix α) : Matrix α :=
  let n := m.buffer.length
  let r := m.Rows
  let st := (List.range' 1 (n - 1) 1).foldl
    (fun st i => if st.2.getD i false then st else doCycle r (n - 1) i n st i)
    (m.buffer, List.replicate n false)
  ⟨r, st.1⟩

end LibB

/-! ## The first `Matrix` variant (`src/types/matrix.h`, lines 1-406)
and the algorithms of `src/unnamed/part_000`, which are written against
it (they use the two-argument `Identity` and the four-index
`GetSubmatrix` of this variant). -/

namespace LibA

/-- Owning dense matrix, first variant (`matrix.h` lines 15-405): stores
the row count `rows_` and the row-major buffer. -/
structure Matrix (α : Type) where
  rows : Nat
  buffer : List α
deriving DecidableEq

/-- Matrix::Rows(), line 211. -/
def Matrix.Rows (m : Matrix α) : Nat := m.rows

/-- Matrix::Columns(), line 213: `buffer_.size() / rows_`, zero when
`rows_ = 0`. -/
def Matrix.Columns (m : Matrix α) : Nat :=
  if m.rows = 0 then 0 else m.buffer.length / m.rows

/-- Matrix::operator()(row_idx, col_idx) const, line 205, totalised with
`0` out of range (an `assert` in the C++). -/
def Matrix.el [Zero α] (m : Matrix α) (i j : Nat) : α :=
  m.buffer.getD (m.Columns * i + j) 0

/-- The nested-initializer-list constructor, lines 54-73: row count is
the list length, the buffer is the concatenation of the rows (all rows
are asserted to have equal length). -/
def ofRows (rows : List (List α)) : Matrix α :=
  ⟨rows.length, rows.flatten⟩

/-- Matrix::ApplyToEach(FunctionIndexes), lines 237-245: early-returns
when either dimension is zero, otherwise rewrites every buffer element
from its value and its `(i, j) = (idx / Columns, idx % Columns)`
coordinates. -/
def Matrix.applyIdx [Zero α] (m : Matrix α) (f : α → Nat → Nat → α) : Matrix α :=
  if m.Columns = 0 ∨ m.Rows = 0 then m
  else ⟨m.rows, (m.buffer.enum.map (fun p => f p.2 (p.1 / m.Columns) (p.1 % m.Columns)))⟩

/-- operator- via operator-=, lines 106-122: elementwise
`val -= rhs(i, j)` over the left operand's coordinates. -/
def subM [Zero α] [Sub α] (lhs rhs : Matrix α) : Matrix α :=
  lhs.applyIdx (fun v i j => v - rhs.el i j)

/-- operator+ via operator+=, lines 88-104. -/
def addM [Zero α] [Add α] (lhs rhs : Matrix α) : Matrix α :=
  lhs.applyIdx (fun v i j => v + rhs.el i j)

/-- The inner accumulation of operator*, lines 132-135: plain
left-to-right summation. -/
def dotA [Zero α] [Add α] [Mul α] (lhs rhs : Matrix α) (i j : Nat) : α :=
  (List.range lhs.Columns).foldl (fun sum k => sum + lhs.el i k * rhs.el k j) 0

/-- operator*(F, S), lines 124-141: a `lhs.Rows() × rhs.Columns()`
result of plain summed entries (no rounding pass in this variant). -/
def mulM [Zero α] [Add α] [Mul α] (lhs rhs : Matrix α) : Matrix α :=
  ⟨lhs.Rows, (List.range (rhs.Columns * lhs.Rows)).map
    (fun idx => dotA lhs rhs (idx / rhs.Columns) (idx % rhs.Columns))⟩

/-- Matrix::RoundZeroes, lines 352-355: every element passing the zero
test becomes exact zero.  The zero test (`utils::IsZeroFloating`,
`utils/is_equal_floating.h` is not under `src/`) is passed as the
parameter `azero`. -/
def Matrix.RoundZeroes [Zero α] (azero : α → Bool) (m : Matrix α) : Matrix α :=
  ⟨m.rows, m.buffer.map (fun el => if azero el then 0 else el)⟩

/-- The diagonal-list constructor, lines 42-52: an `n × n` zero matrix
whose diagonal positions `(idx, idx)` receive the list's values in
order. -/
def mkDiag [Zero α] (diag : List α) : Matrix α :=
  let n := diag.length
  ⟨n, diag.enum.foldl (fun buf p => buf.set (n * p.1 + p.1) p.2)
        (List.replicate (n * n) (0 : α))⟩

/-- static Matrix::Identity(size, default_value), lines 375-377:
`Matrix(Data(size, default_value))`, a diagonal matrix holding
`default_value` at every diagonal position. -/
def Matrix.Identity [Zero α] (size : Nat) (default_value : α) : Matrix α :=
  mkDiag (List.replicate size default_value)

/-- Matrix::ApplyToEach(ConstFunctionIndexes) as a fold, lines 247-255:
the linear pass feeding operator== (lines 177-189). -/
def Matrix.applyFold [Zero α] (m : Matrix α) (f : β → α → Nat → Nat → β) (init : β) : β :=
  if m.Columns = 0 ∨ m.Rows = 0 then init
  else m.buffer.enum.foldl (fun acc p => f acc p.2 (p.1 / m.Columns) (p.1 % m.Columns)) init

/-- operator==(const Matrix&, const M&), lines 176-189: shape check,
then a full tolerance-based elementwise pass accumulating a flag.  The
tolerance comparison (`utils::IsEqualFloating`) is the modelled
`ApproxTol` capability. -/
def Matrix.eqM [Zero α] [ApproxTol α] (lhs rhs : Matrix α) : Bool :=
  if lhs.Rows ≠ rhs.Rows ∨ lhs.Columns ≠ rhs.Columns then false
  else lhs.applyFold (fun acc v i j => acc && IsEqualFloating v (rhs.el i j)) true

/-- The loop body of GetSchurDecomposition (`part_000` lines 40-44):
factor `copy - shift_I`, rebuild as `R * Q + shift_I`, round zeroes.
The Householder factorization (`qr_decomposition.h` is not under
`src/`) is the parameter `qr`; the spec (§4.5) treats it as an opaque
capability producing a `{Q, R}` pair. -/
def schurLoop [Zero α] [Add α] [Sub α] [Mul α] (azero : α → Bool)
    (qr : Matrix α → Matrix α × Matrix α) (shift_I : Matrix α) :
    Nat → Matrix α → Matrix α
  | 0, copy => copy
  | it + 1, copy =>
    let QR := qr (subM copy shift_I)
    schurLoop azero qr shift_I it ((addM (mulM QR.2 QR.1) shift_I).RoundZeroes azero)

/-- GetSchurDecomposition, `part_000` lines 28-47: `shift` is the
integer literal `0`, so `shift_I = Identity(copy.Rows(), 0)`.  The
unused `last_minor` view (line 35) has no effect on the result and is
not embedded. -/
def GetSchurDecomposition [Zero α] [Add α] [Sub α] [Mul α] (azero : α → Bool)
    (qr : Matrix α → Matrix α × Matrix α) (matrix : Matrix α) (it_cnt : Nat) :
    Matrix α :=
  schurLoop azero qr (Matrix.Identity matrix.Rows (0 : α)) it_cnt matrix

/-- Restatement of claim C1's unshifted iteration: each step computes
`{Q, R} = HouseholderQR(A)`, updates `A` to `R * Q`, and rounds
near-zero entries to exact zero. -/
def unshiftedQRIteration [Zero α] [Add α] [Sub α] [Mul α] (azero : α → Bool)
    (qr : Matrix α → Matrix α × Matrix α) : Nat → Matrix α → Matrix α
  | 0, a => a
  | it + 1, a =>
    let QR := qr a
    unshiftedQRIteration azero qr it ((mulM QR.2 QR.1).RoundZeroes azero)

end LibA

namespace LibB

/-- ConstMatrixView::GetSubmatrix(row, col), lines 1131-1144: normalize
the requested segments against the view's shape, then rebuild through
the constructor with the offsets added to the view's own segments. -/
def ConstMatrixView.GetSubmatrix (v : ConstMatrixView α) (row col : Segment) :
    ConstMatrixView α :=
  let r := MakeSegment row (v.Rows : Int)
  let c := MakeSegment col (v.Columns : Int)
  mkConstMatrixView v.ptr ⟨v.row.begin + r.begin, v.row.begin + r.endI⟩
    ⟨v.column.begin + c.begin, v.column.begin + c.endI⟩ v.state

end LibB

/-! ## NaN-aware scalars
`long double` values are idealised as exact reals; the IEEE NaN produced
by the `0/0` inside `GetWilkinsonShift` is modelled by `none`, and every
arithmetic operation and comparison propagates or rejects it the way
IEEE arithmetic does (`NaN op x = NaN`, every comparison with NaN is
false).  The only division by zero reachable in the verified code paths
has a zero numerator, so conflating `x/0` with NaN is exact here. -/

abbrev NR := Option ℝ

noncomputable instance : Zero NR := ⟨some 0⟩

noncomputable instance : One NR := ⟨some 1⟩

noncomputable instance : Add NR := ⟨Option.map₂ (· + ·)⟩

noncomputable instance : Sub NR := ⟨Option.map₂ (· - ·)⟩

noncomputable instance : Mul NR := ⟨Option.map₂ (· * ·)⟩

noncomputable instance : Neg NR := ⟨Option.map Neg.neg⟩

/-- Division with NaN semantics: NaN operands propagate and a zero
denominator produces no real value. -/
noncomputable instance : Div NR :=
  ⟨fun x y => match x, y with
    | some a, some b => if b = 0 then none else some (a / b)
    | _, _ => none⟩

/-- std::sqrt lifted to the NaN-aware scalars. -/
noncomputable def sqrtN (x : NR) : NR := x.map Real.sqrt

/-- std::abs lifted to the NaN-aware scalars. -/
noncomputable def absN (x : NR) : NR := x.map (fun a => |a|)

/-- Modelled from the spec: the §6 helper `sign(x) -> {-1, 0, 1}`
(`utils::Sign`; `utils/checks.h` is not under `src/`). -/
noncomputable def signR (x : ℝ) : ℝ := if x < 0 then -1 else if x = 0 then 0 else 1

/-- `utils::Sign` lifted to the NaN-aware scalars. -/
noncomputable def signN (x : NR) : NR := x.map signR

/-- Tolerance comparisons on the NaN-aware scalars: every comparison
involving NaN is false, as in IEEE arithmetic. -/
noncomputable instance : ApproxTol NR where
  IsEqualFloating x y :=
    match x, y with
    | some a, some b => if |a - b| < (epsTol : ℝ) then true else false
    | _, _ => false
  IsZeroFloating x :=
    match x with
    | some a => if |a| < (epsTol : ℝ) then true else false
    | none => false

namespace LibA

/-- GetWilkinsonShift, `part_000` lines 8-21: reads the 2×2 symmetric
block and returns `matrix(1,1) - Sign(d) * matrix(0,1)^2 / (|d| +
sqrt(d*d + matrix(0,1)^2))` with `d = (matrix(0,0) - matrix(1,1)) / 2`.
No clamping of the denominator is performed by the code. -/
noncomputable def GetWilkinsonShift (matrix : Matrix NR) : NR :=
  let d := (matrix.el 0 0 - matrix.el 1 1) / some 2
  let coefficient := absN d + sqrtN (d * d + matrix.el 0 1 * matrix.el 0 1)
  matrix.el 1 1 - (signN d * matrix.el 0 1 * matrix.el 0 1) / coefficient

/-- Restatement of claim C3's formula, with its stated convention
`sign(0) = 1`. -/
noncomputable def wilkinsonShiftSpecC3 (a b d : ℝ) : ℝ :=
  let δ := (a - d) / 2
  let sgn : ℝ := if δ < 0 then -1 else 1
  d - sgn * b ^ 2 / (|δ| + Real.sqrt (δ ^ 2 + b ^ 2))

/-- Modelled from the spec: GivensLeftRotation (`givens.h` is not under
`src/`), per §4.4: `r = sqrt(|a|^2 + |b|^2)`, identity when `r` is zero,
otherwise the rotation `[[c, s], [-s, c]]` (real element type, so
`conj(s) = s`) applied to rows `i` and `k` in place. -/
noncomputable def GivensLeftRotation (m : Matrix NR) (i k : Nat) (a b : NR) :
    Matrix NR :=
  let r := sqrtN (absN a * absN a + absN b * absN b)
  if r = (some 0 : NR) then m
  else
    let c := a / r
    let s := b / r
    ⟨m.rows, m.buffer.enum.map (fun p =>
      let jj := p.1 % m.Columns
      if p.1 / m.Columns = i then c * m.el i jj + s * m.el k jj
      else if p.1 / m.Columns = k then (-s) * m.el i jj + c * m.el k jj
      else p.2)⟩

/-- Modelled from the spec: GivensRightRotation (`givens.h` is not under
`src/`), per §4.4: the same rotation applied to columns `i` and `k`,
the inverse of the left rotation so that accumulator products are
preserved. -/
noncomputable def GivensRightRotation (m : Matrix NR) (i k : Nat) (a b : NR) :
    Matrix NR :=
  let r := sqrtN (absN a * absN a + absN b * absN b)
  if r = (some 0 : NR) then m
  else
    let c := a / r
    let s := b / r
    ⟨m.rows, m.buffer.enum.map (fun p =>
      let ii := p.1 / m.Columns
      if p.1 % m.Columns = i then c * m.el ii i + s * m.el ii k
      else if p.1 % m.Columns = k then (-s) * m.el ii i + c * m.el ii k
      else p.2)⟩

/-- One sweep of BidiagonalAlgorithmQR (`part_000` lines 79-105): build
the Gram-like 2×2 block `BB` from the trailing minor, take its Wilkinson
shift, run the bulge-chasing pass over `i < size`, and round zeroes in
`S` at the end. -/
noncomputable def bidiagSweep (r c size : Nat)
    (st : Matrix NR × Matrix NR × Matrix NR) :
    Matrix NR × Matrix NR × Matrix NR :=
  let U := st.1
  let S := st.2.1
  let VT := st.2.2
  let minor00 := S.el (r - 2) (c - 2)
  let minor01 := S.el (r - 2) (c - 1)
  let minor11 := S.el (r - 1) (c - 1)
  let bb00 := minor00 * minor00 +
    (if 3 ≤ r then S.el (r - 3) (c - 2) * S.el (r - 3) (c - 2) else (0 : NR))
  let bb10 := minor00 * minor01
  let bb11 := minor01 * minor01 + minor11 * minor11
  let BB : Matrix NR := ofRows [[bb00, bb10], [bb10, bb11]]
  let shift := GetWilkinsonShift BB
  let st' := (List.range size).foldl
    (fun (st : Matrix NR × Matrix NR × Matrix NR) i =>
      let U := st.1
      let S := st.2.1
      let VT := st.2.2
      let SVT :=
        if i + 1 < S.Columns then
          let f_elem := if 0 < i then S.el (i - 1) i else S.el 0 0 * S.el 0 0 - shift
          let s_elem := if 0 < i then S.el (i - 1) (i + 1) else S.el 0 1 * S.el 0 0
          (GivensRightRotation S i (i + 1) f_elem s_elem,
           GivensLeftRotation VT i (i + 1) f_elem s_elem)
        else (S, VT)
      if i + 1 < SVT.1.Rows then
        (GivensRightRotation U i (i + 1) (SVT.1.el i i) (SVT.1.el (i + 1) i),
         GivensLeftRotation SVT.1 i (i + 1) (SVT.1.el i i) (SVT.1.el (i + 1) i),
         SVT.2)
      else (U, SVT.1, SVT.2))
    (U, S, VT)
  (st'.1, st'.2.1.RoundZeroes IsZeroFloating, st'.2.2)

/-- BidiagonalAlgorithmQR, `part_000` lines 62-109: working copy `S` of
the 2×2 bidiagonal input, accumulators `U` and `VT` initialized to
identities, `it_cnt` sweeps (`while (it_cnt--)`). -/
noncomputable def BidiagonalAlgorithmQR (B : Matrix NR) (it_cnt : Nat) :
    Matrix NR × Matrix NR × Matrix NR :=
  let r := B.Rows
  let c := B.Columns
  let size := min r c
  Nat.rec (motive := fun _ => Matrix NR × Matrix NR × Matrix NR)
    (Matrix.Identity r (1 : NR), B, Matrix.Identity c (1 : NR))
    (fun _ st => bidiagSweep r c size st) it_cnt

end LibA

/-! # Theorems -/

/-! ## Shared list and fold helpers -/

theorem foldl_flag_eq_all (q : β → Bool) (l : List β) :
    ∀ b : Bool, l.foldl (fun acc p => if ¬ q p then false else acc) b = (b && l.all q) := by
  induction l with
  | nil => intro b; simp
  | cons p l ih =>
    intro b
    simp only [List.foldl_cons, List.all_cons, ih]
    cases hq : q p <;> cases b <;> simp [hq]

theorem foldl_and_eq_all (q : β → Bool) (l : List β) :
    ∀ b : Bool, l.foldl (fun acc p => acc && q p) b = (b && l.all q) := by
  induction l with
  | nil => intro b; simp
  | cons p l ih =>
    intro b
    simp only [List.foldl_cons, List.all_cons, ih]
    cases hq : q p <;> cases b <;> simp [hq]

namespace LibB

/-! ## Claim C9: segment normalization -/

/-- Claim C9: `MakeSegment` first resets `end` to the axis maximum when
it is non-positive or exceeds the maximum, and afterwards resets `begin`
to `0` when `begin >= end` or `begin` lies outside `[0, max)`; in
particular the sentinel `{-1, -1}` collapses to the full axis
`[0, max)`. -/
theorem claim_C9 :
    (∀ (seg : Segment) (max_value : Int),
      MakeSegment seg max_value = MakeSegmentSpec seg max_value) ∧
    (∀ max_value : Int, MakeSegment ⟨-1, -1⟩ max_value = ⟨0, max_value⟩) := by
  constructor
  · intro seg max_value
    simp only [MakeSegment, MakeSegmentSpec, Segment.mk.injEq]
    split_ifs <;> simp_all <;> omega
  · intro max_value
    simp only [MakeSegment, Segment.mk.injEq]
    split_ifs <;> simp_all

/-! ## Claim C2: view element read -/

/-- Claim C2 (code bug evaluation): for the 3×3 storage `1..9`, the
transposed sub-view with row segment `{1,3}` and column segment `{0,2}`
(reachable as `GetSubmatrix({1,3},{0,2})` of `Transposed(view)`) reads
element `(0,0)` from storage coordinates `(row_.begin + 0, column_.begin
+ 0) = (1,0)`, value `4`, while the spec's mapping `(column_.begin + 0,
row_.begin + 0) = (0,1)` designates value `2`. -/
theorem claim_C2 :
    letI m : Matrix ℚ := ⟨3, [1, 2, 3, 4, 5, 6, 7, 8, 9]⟩
    letI v := (Matrix.Transposed m.View).GetSubmatrix ⟨1, 3⟩ ⟨0, 2⟩
    v = mkConstMatrixView m ⟨1, 3⟩ ⟨0, 2⟩ ⟨true, false⟩ ∧
    v.el 0 0 = 4 ∧ v.elSpec 0 0 = 2 ∧ decide (v.el 0 0 = v.elSpec 0 0) = false := by
  refine ⟨by decide, by decide, by decide, by decide⟩

end LibB

namespace LibB

/-! ## Claim C4: equality of matrix-like operands -/

theorem eqView_eq_spec [Zero α] [ScalarConj α] [ApproxTol α]
    (lhs rhs : ConstMatrixView α) : lhs.eqView rhs = eqViewSpec lhs rhs := by
  unfold ConstMatrixView.eqView eqViewSpec
  by_cases hr : lhs.Rows = rhs.Rows
  · by_cases hc : lhs.Columns = rhs.Columns
    · rw [if_neg (by simp [hr, hc])]
      rw [foldl_flag_eq_all]
      simp [hr, hc]
    · rw [if_pos (by simp [hc])]
      simp [hc]
  · rw [if_pos (by simp [hr])]
    simp [hr]

/-- Claim C4 counterexample: a `2×3` all-ones matrix and a `3×2`
all-ones matrix have different row counts, yet the owning-vs-owning
`operator==` (raw buffer comparison, line 582) returns `true`; the claim
as stated demands `false` here. -/
theorem claim_C4_counterexample :
    Matrix.eqMM (mkMatrix ℚ 2 3 1) (mkMatrix ℚ 3 2 1) = true ∧
    decide ((mkMatrix ℚ 2 3 1).Rows = (mkMatrix ℚ 3 2 1).Rows) = false := by decide

/-- Claim C4 (amended): comparisons that involve a view are
shape-then-tolerance elementwise comparisons, but the owning-vs-owning
`operator==` compares the raw buffers for exact equality and ignores
the row/column split. -/
theorem claim_C4 :
    (∀ lhs rhs : Matrix ℚ, Matrix.eqMM lhs rhs = decide (lhs.buffer = rhs.buffer)) ∧
    (∀ lhs rhs : ConstMatrixView ℚ, lhs.eqView rhs = eqViewSpec lhs rhs) ∧
    (∀ (lhs : Matrix ℚ) (rhs : ConstMatrixView ℚ),
      Matrix.eqMV lhs rhs = eqViewSpec lhs.View rhs) ∧
    (∀ lhs rhs : ConstMatrixView RC, lhs.eqView rhs = eqViewSpec lhs rhs) := by
  refine ⟨fun lhs rhs => rfl, fun lhs rhs => eqView_eq_spec lhs rhs,
    fun lhs rhs => eqView_eq_spec _ rhs, fun lhs rhs => eqView_eq_spec lhs rhs⟩

/-! ## Claim C6: view transform round-trips -/

theorem makeSegment_idem (s : Segment) (max_value : Int) :
    MakeSegment (MakeSegment s max_value) max_value = MakeSegment s max_value := by
  simp only [MakeSegment, Segment.mk.injEq]
  split_ifs <;> simp_all

theorem transposed_mkView (m : Matrix α) (r c : Segment) (st : MatrixState) :
    Matrix.Transposed (mkConstMatrixView m r c st) =
      mkConstMatrixView m c r ⟨!st.is_transposed, st.is_conjugated⟩ := by
  cases st with
  | mk t cj =>
    cases t <;>
      simp [Matrix.Transposed, mkConstMatrixView, makeSegment_idem]

theorem conjugated_mkView (m : Matrix α) (r c : Segment) (st : MatrixState) :
    Matrix.Conjugated (mkConstMatrixView m r c st) =
      mkConstMatrixView m c r ⟨!st.is_transposed, !st.is_conjugated⟩ := by
  cases st with
  | mk t cj =>
    cases t <;>
      simp [Matrix.Conjugated, mkConstMatrixView, makeSegment_idem]

theorem eqView_self [Zero α] [ScalarConj α] [ApproxTol α]
    (v : ConstMatrixView α) (href : ∀ x : α, IsEqualFloating x x = true) :
    v.eqView v = true := by
  rw [eqView_eq_spec]
  unfold eqViewSpec
  simp only [decide_eq_true_eq, decide_True, Bool.true_and]
  rw [List.all_eq_true]
  intro p _
  exact href _

theorem epsTol_pos : 0 < epsTol := by norm_num [epsTol]

theorem isEq_refl_Q (x : ℚ) : IsEqualFloating x x = true := by
  simp [IsEqualFloating, epsTol]

theorem isEq_refl_RC (x : RC) : IsEqualFloating x x = true := by
  simp [IsEqualFloating, epsTol]

/-- Claim C6: for every view built through the normalizing constructor
(over any storage, any requested segments, any transform state — this
covers sub-views with nonzero offsets over non-square storage),
`Transposed(Transposed(V))` is `V` itself, structurally and under
`operator==`; and for the complex element type the same holds for
`Conjugated(Conjugated(V))`. -/
theorem claim_C6 :
    (∀ (m : Matrix ℚ) (r c : Segment) (st : MatrixState),
      Matrix.Transposed (Matrix.Transposed (mkConstMatrixView m r c st)) =
        mkConstMatrixView m r c st ∧
      (Matrix.Transposed (Matrix.Transposed (mkConstMatrixView m r c st))).eqView
        (mkConstMatrixView m r c st) = true) ∧
    (∀ (m : Matrix RC) (r c : Segment) (st : MatrixState),
      (Matrix.Transposed (Matrix.Transposed (mkConstMatrixView m r c st)) =
        mkConstMatrixView m r c st ∧
      (Matrix.Transposed (Matrix.Transposed (mkConstMatrixView m r c st))).eqView
        (mkConstMatrixView m r c st) = true) ∧
      (Matrix.Conjugated (Matrix.Conjugated (mkConstMatrixView m r c st)) =
        mkConstMatrixView m r c st ∧
      (Matrix.Conjugated (Matrix.Conjugated (mkConstMatrixView m r c st))).eqView
        (mkConstMatrixView m r c st) = true)) := by
  constructor
  · intro m r c st
    have h : Matrix.Transposed (Matrix.Transposed (mkConstMatrixView m r c st)) =
        mkConstMatrixView m r c st := by
      rw [transposed_mkView, transposed_mkView]
      simp
    exact ⟨h, by rw [h]; exact eqView_self _ isEq_refl_Q⟩
  · intro m r c st
    have h : Matrix.Transposed (Matrix.Transposed (mkConstMatrixView m r c st)) =
        mkConstMatrixView m r c st := by
      rw [transposed_mkView, transposed_mkView]
      simp
    have h' : Matrix.Conjugated (Matrix.Conjugated (mkConstMatrixView m r c st)) =
        mkConstMatrixView m r c st := by
      rw [conjugated_mkView, conjugated_mkView]
      simp
    exact ⟨⟨h, by rw [h]; exact eqView_self _ isEq_refl_RC⟩,
      ⟨h', by rw [h']; exact eqView_self _ isEq_refl_RC⟩⟩

end LibB

namespace LibB

/-! ## Claims C8 and C10: the view-level matrix product -/

theorem mulVV_el (lhs rhs : ConstMatrixView ℚ)
    (hr : lhs.Rows ≠ 0) (hc : rhs.Columns ≠ 0) (i j : Nat)
    (hi : i < lhs.Rows) (hj : j < rhs.Columns) :
    (lhs.mulVV rhs).el i j =
      (if IsZeroFloating (dotProd lhs rhs i j) then 0 else dotProd lhs rhs i j) := by
  unfold ConstMatrixView.mulVV
  rw [if_neg (by simp [hr, hc])]
  have hk : rhs.Columns * i + j < rhs.Columns * lhs.Rows := by
    calc rhs.Columns * i + j < rhs.Columns * i + rhs.Columns := by omega
    _ = rhs.Columns * (i + 1) := by ring
    _ ≤ rhs.Columns * lhs.Rows := Nat.mul_le_mul_left _ (by omega)
  have hdiv : (rhs.Columns * i + j) / rhs.Columns = i := by
    rw [Nat.mul_add_div (by omega), Nat.div_eq_of_lt hj]
    omega
  have hmod : (rhs.Columns * i + j) % rhs.Columns = j := by
    rw [Nat.mul_add_mod, Nat.mod_eq_of_lt hj]
  simp only [Matrix.el, Matrix.RoundZeroes, Matrix.Columns, List.getD_eq_getElem?_getD,
    List.getElem?_map, List.getElem?_range hk, Option.map_some', Option.getD_some, hdiv, hmod,
    Nat.add_zero]

theorem mulVV_shape (lhs rhs : ConstMatrixView ℚ)
    (hr : lhs.Rows ≠ 0) (hc : rhs.Columns ≠ 0) :
    (lhs.mulVV rhs).Rows = lhs.Rows ∧ (lhs.mulVV rhs).Columns = rhs.Columns := by
  unfold ConstMatrixView.mulVV
  rw [if_neg (by simp [hr, hc])]
  constructor
  · simp only [Matrix.Rows, Matrix.RoundZeroes, Matrix.Columns, List.length_map,
      List.length_range]
    rw [if_neg hc]
    exact Nat.mul_div_cancel_left _ (by omega)
  · rfl

/-- Element read of a full view over a `1×1` storage. -/
theorem view11_el (x : ℚ) : (Matrix.mk 1 [x]).View.el 0 0 = x := by
  with_unfolding_all rfl

theorem dotProd11 (x y : ℚ) :
    dotProd (Matrix.mk 1 [x]).View (Matrix.mk 1 [y]).View 0 0 = x * y := by
  have h : (Matrix.mk 1 [x]).View.Columns = 1 := by with_unfolding_all rfl
  rw [dotProd, h]
  simp only [List.range_succ, List.range_zero, List.nil_append, List.foldl_cons,
    List.foldl_nil, view11_el, zero_add]

theorem isZeroQ_eq (a : ℚ) : IsZeroFloating a = decide (|a| < epsTol) := rfl

/-- Claim C8 counterexample: multiplying the `1×1` view holding the
nonzero value `1/10^10` by the `1×1` view holding `1` yields the plain
sum `1/10^10`, but the returned entry is exact `0` because the product
operator applies the round-near-zero pass before returning; the claim
says the returned entry equals the plain sum. -/
theorem claim_C8_counterexample :
    ((Matrix.mk 1 [tinyQ]).View.mulVV (Matrix.mk 1 [(1 : ℚ)]).View).el 0 0 = 0 ∧
    dotProd (Matrix.mk 1 [tinyQ]).View (Matrix.mk 1 [(1 : ℚ)]).View 0 0 = tinyQ ∧
    decide ((0 : ℚ) = tinyQ) = false := by
  have hd : dotProd (Matrix.mk 1 [tinyQ]).View (Matrix.mk 1 [(1 : ℚ)]).View 0 0 = tinyQ := by
    rw [dotProd11, mul_one]
  have hz : IsZeroFloating tinyQ = true := by
    rw [isZeroQ_eq, decide_eq_true_eq, abs_lt]
    constructor <;> norm_num [tinyQ, epsTol]
  refine ⟨?_, hd, ?_⟩
  · rw [mulVV_el _ _ (by decide) (by decide) 0 0 (by decide) (by decide), hd, if_pos hz]
  · rw [decide_eq_false_iff_not]
    norm_num [tinyQ]

/-- Claim C8 (amended): for operands with `lhs.Columns() == rhs.Rows()`
the product has shape `lhs.Rows() × rhs.Columns()` (the empty matrix
when either resulting dimension is zero), and each returned entry is the
plain left-to-right sum over the shared dimension, except that a sum
passing the tolerance-based zero test is returned as exact `0` (the
`RoundZeroes` pass of line 961). -/
theorem claim_C8 (lhs rhs : ConstMatrixView ℚ) (hk : lhs.Columns = rhs.Rows) :
    ((lhs.Rows = 0 ∨ rhs.Columns = 0) → lhs.mulVV rhs = ⟨0, []⟩) ∧
    (lhs.Rows ≠ 0 → rhs.Columns ≠ 0 →
      (lhs.mulVV rhs).Rows = lhs.Rows ∧ (lhs.mulVV rhs).Columns = rhs.Columns ∧
      ∀ i j, i < lhs.Rows → j < rhs.Columns →
        (lhs.mulVV rhs).el i j =
          (if IsZeroFloating (dotProd lhs rhs i j) then 0
           else dotProd lhs rhs i j)) := by
  constructor
  · intro h
    unfold ConstMatrixView.mulVV
    rw [if_pos h]
  · intro hr hc
    exact ⟨(mulVV_shape lhs rhs hr hc).1, (mulVV_shape lhs rhs hr hc).2,
      fun i j hi hj => mulVV_el lhs rhs hr hc i j hi hj⟩

/-- Witness for claim C8 at a concrete input: `[[2]] * [[3]]` has shape
`1×1` and entry `6`. -/
theorem claim_C8_witness :
    ((Matrix.mk 1 [(2 : ℚ)]).View.mulVV (Matrix.mk 1 [(3 : ℚ)]).View).Rows = 1 ∧
    ((Matrix.mk 1 [(2 : ℚ)]).View.mulVV (Matrix.mk 1 [(3 : ℚ)]).View).el 0 0 = 6 := by
  have h2 := (claim_C8 (Matrix.mk 1 [(2 : ℚ)]).View (Matrix.mk 1 [(3 : ℚ)]).View
    (by decide)).2 (by decide) (by decide)
  have hd : dotProd (Matrix.mk 1 [(2 : ℚ)]).View (Matrix.mk 1 [(3 : ℚ)]).View 0 0 = 6 := by
    rw [dotProd11]
    norm_num
  have hz : ¬ IsZeroFloating (6 : ℚ) = true := by
    rw [isZeroQ_eq, decide_eq_true_eq, abs_lt]
    norm_num [epsTol]
  refine ⟨?_, ?_⟩
  · rw [h2.1]
    decide
  · rw [h2.2.2 0 0 (by decide) (by decide), hd, if_neg hz]

/-- Claim C10: the view-level product is exactly the unrounded product
followed by the round-near-zero pass, so no returned entry is
simultaneously nonzero and approximately zero. -/
theorem claim_C10 (lhs rhs : ConstMatrixView ℚ) :
    lhs.mulVV rhs = (lhs.mulVVNoRound rhs).RoundZeroes ∧
    ∀ x ∈ (lhs.mulVV rhs).buffer, IsZeroFloating x = true → x = 0 := by
  constructor
  · unfold ConstMatrixView.mulVV ConstMatrixView.mulVVNoRound
    by_cases h : lhs.Rows = 0 ∨ rhs.Columns = 0
    · rw [if_pos h, if_pos h]
      rfl
    · rw [if_neg h, if_neg h]
  · intro x hx hzero
    unfold ConstMatrixView.mulVV at hx
    by_cases h : lhs.Rows = 0 ∨ rhs.Columns = 0
    · rw [if_pos h] at hx
      simp at hx
    · rw [if_neg h] at hx
      simp only [Matrix.RoundZeroes, List.mem_map] at hx
      obtain ⟨v, _, hv⟩ := hx
      by_cases hz : IsZeroFloating v
      · rw [← hv, if_pos hz]
      · rw [← hv, if_neg hz] at hzero ⊢
        rw [hzero] at hz
        simp at hz

/-- Witness for claim C10 at a concrete input: the single product entry
of `[[0]] * [[0]]` passes the zero test and is indeed exact zero. -/
theorem claim_C10_witness :
    ((Matrix.mk 1 [(0 : ℚ)]).View.mulVV ((Matrix.mk 1 [(0 : ℚ)]).View)).buffer = [0] ∧
    (0 : ℚ) = 0 := by
  have hbuf : ((Matrix.mk 1 [(0 : ℚ)]).View.mulVV
      ((Matrix.mk 1 [(0 : ℚ)]).View)).buffer = [0] := by
    unfold ConstMatrixView.mulVV
    rw [if_neg (by decide)]
    have hc : (Matrix.mk 1 [(0 : ℚ)]).View.Columns = 1 := by decide
    have hr : (Matrix.mk 1 [(0 : ℚ)]).View.Rows = 1 := by decide
    rw [Matrix.RoundZeroes]
    simp only [hc, hr, Nat.mul_one, List.range_succ, List.range_zero, List.nil_append,
      List.map_cons, List.map_nil, Nat.zero_div, Nat.zero_mod]
    rw [dotProd11, mul_zero]
    rw [if_pos (by rw [isZeroQ_eq, decide_eq_true_eq]; simp [epsTol])]
  have hmem : (0 : ℚ) ∈ ((Matrix.mk 1 [(0 : ℚ)]).View.mulVV
      ((Matrix.mk 1 [(0 : ℚ)]).View)).buffer := by
    rw [hbuf]
    exact List.mem_singleton.mpr rfl
  have hz : IsZeroFloating (0 : ℚ) = true := by
    rw [isZeroQ_eq, decide_eq_true_eq]
    simp [epsTol]
  exact ⟨hbuf, (claim_C10 ((Matrix.mk 1 [(0 : ℚ)]).View)
    ((Matrix.mk 1 [(0 : ℚ)]).View)).2 0 hmem hz⟩

end LibB

namespace LibA

/-! ## Claim C1: the Schur iteration is unshifted QR iteration -/

theorem getD_zero_of_all_zero [Zero α] (buf : List α)
    (h : ∀ x ∈ buf, x = 0) (k : Nat) : buf.getD k 0 = 0 := by
  rw [List.getD_eq_getElem?_getD]
  cases hk : buf[k]? with
  | none => rfl
  | some v => exact h v (List.getElem?_mem hk)

theorem foldl_set_all_zero [Zero α] (l : List (Nat × α))
    (hl : ∀ p ∈ l, p.2 = (0 : α)) (f : Nat × α → Nat) :
    ∀ buf : List α, (∀ x ∈ buf, x = 0) →
      ∀ x ∈ l.foldl (fun b p => b.set (f p) p.2) buf, x = 0 := by
  induction l with
  | nil => intro buf hbuf x hx; exact hbuf x hx
  | cons p l ih =>
    intro buf hbuf x hx
    refine ih (fun q hq => hl q (List.mem_cons_of_mem _ hq)) _ ?_ x hx
    intro y hy
    rcases List.mem_or_eq_of_mem_set hy with h | h
    · exact hbuf y h
    · rw [h]; exact hl p (List.mem_cons_self _ _)

theorem identity_zero_buffer [Zero α] (n : Nat) :
    ∀ x ∈ (Matrix.Identity n (0 : α)).buffer, x = 0 := by
  unfold Matrix.Identity mkDiag
  intro x hx
  refine foldl_set_all_zero _ ?_ _ _ ?_ x hx
  · intro p hp
    have : p.2 ∈ (List.replicate n (0 : α)).enum.map Prod.snd :=
      List.mem_map_of_mem Prod.snd hp
    rw [List.enum_map_snd] at this
    exact List.eq_of_mem_replicate this
  · intro y hy
    exact List.eq_of_mem_replicate hy

theorem identity_zero_el [Zero α] (n i j : Nat) :
    (Matrix.Identity n (0 : α)).el i j = 0 :=
  getD_zero_of_all_zero _ (identity_zero_buffer n) _

theorem subM_identity_zero (X : Matrix ℚ) (n : Nat) :
    subM X (Matrix.Identity n (0 : ℚ)) = X := by
  unfold subM Matrix.applyIdx
  by_cases h : X.Columns = 0 ∨ X.Rows = 0
  · rw [if_pos h]
  · rw [if_neg h]
    have : X.buffer.enum.map
        (fun p => p.2 - (Matrix.Identity n (0 : ℚ)).el (p.1 / X.Columns) (p.1 % X.Columns)) =
        X.buffer.enum.map Prod.snd := by
      refine List.map_congr_left ?_
      intro p _
      rw [identity_zero_el, sub_zero]
    rw [this, List.enum_map_snd]

theorem addM_identity_zero (X : Matrix ℚ) (n : Nat) :
    addM X (Matrix.Identity n (0 : ℚ)) = X := by
  unfold addM Matrix.applyIdx
  by_cases h : X.Columns = 0 ∨ X.Rows = 0
  · rw [if_pos h]
  · rw [if_neg h]
    have : X.buffer.enum.map
        (fun p => p.2 + (Matrix.Identity n (0 : ℚ)).el (p.1 / X.Columns) (p.1 % X.Columns)) =
        X.buffer.enum.map Prod.snd := by
      refine List.map_congr_left ?_
      intro p _
      rw [identity_zero_el, add_zero]
    rw [this, List.enum_map_snd]

theorem schurLoop_eq_unshifted (azero : ℚ → Bool)
    (qr : Matrix ℚ → Matrix ℚ × Matrix ℚ) (n : Nat) :
    ∀ (it : Nat) (A : Matrix ℚ),
      schurLoop azero qr (Matrix.Identity n (0 : ℚ)) it A =
        unshiftedQRIteration azero qr it A := by
  intro it
  induction it with
  | zero => intro A; rfl
  | succ it ih =>
    intro A
    unfold schurLoop unshiftedQRIteration
    dsimp only
    rw [subM_identity_zero, addM_identity_zero]
    exact ih _

/-- Claim C1: `GetSchurDecomposition` is, for every input matrix (in
particular every Hermitian one), every iteration count, every
Householder QR routine and every zero test, exactly the plain unshifted
QR iteration `A ← RoundZeroes(R * Q)` repeated `it_cnt` times; and the
shift term `Identity(n, 0)` is the zero matrix. -/
theorem claim_C1 (azero : ℚ → Bool) (qr : Matrix ℚ → Matrix ℚ × Matrix ℚ)
    (A : Matrix ℚ) (it_cnt : Nat) :
    GetSchurDecomposition azero qr A it_cnt =
      unshiftedQRIteration azero qr it_cnt A ∧
    (∀ i j, (Matrix.Identity A.Rows (0 : ℚ)).el i j = 0) :=
  ⟨schurLoop_eq_unshifted azero qr A.Rows it_cnt A,
   fun i j => identity_zero_el A.Rows i j⟩

end LibA

/-! ## NaN-aware scalar evaluation lemmas -/

@[simp] theorem nr_add_some (a b : ℝ) : (some a + some b : NR) = some (a + b) := rfl

@[simp] theorem nr_add_none_left (x : NR) : (none + x : NR) = none := rfl

@[simp] theorem nr_add_none_right (x : NR) : (x + none : NR) = none := by
  cases x <;> rfl

@[simp] theorem nr_sub_some (a b : ℝ) : (some a - some b : NR) = some (a - b) := rfl

@[simp] theorem nr_sub_none_left (x : NR) : (none - x : NR) = none := rfl

@[simp] theorem nr_sub_none_right (x : NR) : (x - none : NR) = none := by
  cases x <;> rfl

@[simp] theorem nr_mul_some (a b : ℝ) : (some a * some b : NR) = some (a * b) := rfl

@[simp] theorem nr_mul_none_left (x : NR) : (none * x : NR) = none := rfl

@[simp] theorem nr_mul_none_right (x : NR) : (x * none : NR) = none := by
  cases x <;> rfl

@[simp] theorem nr_neg_some (a : ℝ) : (-(some a) : NR) = some (-a) := rfl

@[simp] theorem nr_neg_none : (-(none : Option ℝ) : NR) = none := rfl

@[simp] theorem nr_div_some (a b : ℝ) :
    (some a / some b : NR) = if b = 0 then none else some (a / b) := rfl

@[simp] theorem nr_div_none_left (x : NR) : (none / x : NR) = none := by
  cases x <;> rfl

@[simp] theorem nr_div_none_right (x : NR) : (x / none : NR) = none := by
  cases x <;> rfl

@[simp] theorem sqrtN_some (a : ℝ) : sqrtN (some a) = some (Real.sqrt a) := rfl

@[simp] theorem sqrtN_none : sqrtN none = none := rfl

@[simp] theorem absN_some (a : ℝ) : absN (some a) = some |a| := rfl

@[simp] theorem absN_none : absN none = none := rfl

@[simp] theorem signN_some (a : ℝ) : signN (some a) = some (signR a) := rfl

@[simp] theorem signN_none : signN none = none := rfl

@[simp] theorem signR_zero : signR 0 = 0 := by simp [signR]

@[simp] theorem nr_zero_def : (0 : NR) = some 0 := rfl

@[simp] theorem nr_one_def : (1 : NR) = some 1 := rfl

namespace LibA

/-! ## Claim C3: the Wilkinson shift -/

theorem ofRows2_el00 (a b c d : NR) : (ofRows [[a, b], [c, d]]).el 0 0 = a := rfl

theorem ofRows2_el01 (a b c d : NR) : (ofRows [[a, b], [c, d]]).el 0 1 = b := rfl

theorem ofRows2_el10 (a b c d : NR) : (ofRows [[a, b], [c, d]]).el 1 0 = c := by
  with_unfolding_all rfl

theorem ofRows2_el11 (a b c d : NR) : (ofRows [[a, b], [c, d]]).el 1 1 = d := by
  with_unfolding_all rfl

/-- Evaluation of the embedded Wilkinson shift on a symmetric 2×2 block
of real (non-NaN) entries. -/
theorem wilkinson_eval (a b d : ℝ) :
    GetWilkinsonShift (ofRows [[some a, some b], [some b, some d]]) =
      (if |(a - d) / 2| + Real.sqrt ((a - d) / 2 * ((a - d) / 2) + b * b) = 0
       then none
       else some (d - signR ((a - d) / 2) * b * b /
         (|(a - d) / 2| + Real.sqrt ((a - d) / 2 * ((a - d) / 2) + b * b)))) := by
  unfold GetWilkinsonShift
  rw [ofRows2_el00, ofRows2_el01, ofRows2_el11]
  rw [nr_sub_some]
  rw [nr_div_some, if_neg (two_ne_zero)]
  simp only [absN_some, nr_mul_some, nr_add_some, sqrtN_some, signN_some, nr_div_some]
  by_cases hc : |(a - d) / 2| + Real.sqrt ((a - d) / 2 * ((a - d) / 2) + b * b) = 0
  · rw [if_pos hc, if_pos hc, nr_sub_none_right]
  · rw [if_neg hc, if_neg hc, nr_sub_some]

theorem wilkinson_coeff_eq_zero_iff (a b d : ℝ) :
    |(a - d) / 2| + Real.sqrt ((a - d) / 2 * ((a - d) / 2) + b * b) = 0 ↔
      a = d ∧ b = 0 := by
  constructor
  · intro h
    have habs : |(a - d) / 2| = 0 ∧ Real.sqrt ((a - d) / 2 * ((a - d) / 2) + b * b) = 0 := by
      constructor
      · nlinarith [abs_nonneg ((a - d) / 2),
          Real.sqrt_nonneg ((a - d) / 2 * ((a - d) / 2) + b * b)]
      · nlinarith [abs_nonneg ((a - d) / 2),
          Real.sqrt_nonneg ((a - d) / 2 * ((a - d) / 2) + b * b)]
    have hd : (a - d) / 2 = 0 := abs_eq_zero.mp habs.1
    have hb : (a - d) / 2 * ((a - d) / 2) + b * b ≤ 0 := Real.sqrt_eq_zero'.mp habs.2
    constructor
    · linarith [hd]
    · nlinarith [hb, hd]
  · rintro ⟨rfl, rfl⟩
    simp

/-- Claim C3 counterexample: on `[[5,0],[0,5]]` (both `δ` and `b` zero)
the code divides by the zero coefficient and returns NaN (`none`), not
the claimed exact `d = 5`; and on `[[0,1],[1,0]]` (`δ = 0`, `b = 1`) the
code returns `0` (the modelled §6 `sign` gives `sign(0) = 0`), while the
claim's `sign(0) = 1` convention demands `-1`. -/
theorem claim_C3_counterexample :
    GetWilkinsonShift (ofRows [[some 5, some 0], [some 0, some 5]]) = none ∧
    (GetWilkinsonShift (ofRows [[some 5, some 0], [some 0, some 5]])).isSome = false ∧
    GetWilkinsonShift (ofRows [[some 0, some 1], [some 1, some 0]]) = some 0 ∧
    wilkinsonShiftSpecC3 5 0 5 = 5 ∧
    wilkinsonShiftSpecC3 0 1 0 = -1 ∧ (0 : ℝ) ≠ -1 := by
  have h1 : GetWilkinsonShift (ofRows [[some 5, some 0], [some 0, some 5]]) = none := by
    rw [wilkinson_eval]
    rw [if_pos (by norm_num [Real.sqrt_zero])]
  have h2 : GetWilkinsonShift (ofRows [[some 0, some 1], [some 1, some 0]]) = some 0 := by
    rw [wilkinson_eval]
    rw [if_neg (by rw [wilkinson_coeff_eq_zero_iff]; norm_num)]
    norm_num
  refine ⟨h1, by rw [h1]; rfl, h2, ?_, ?_, by norm_num⟩
  · unfold wilkinsonShiftSpecC3
    norm_num
  · unfold wilkinsonShiftSpecC3
    norm_num [Real.sqrt_one]

/-- Claim C3 (amended): `GetWilkinsonShift` on the symmetric block
`[[a,b],[b,d]]` returns `d - sign(δ)·b²/(|δ| + sqrt(δ² + b²))` with the
three-valued `sign` of §6 (`sign(0) = 0`) whenever the denominator is
nonzero, i.e. whenever not both `δ` and `b` are zero; when `a = d` and
`b = 0` the denominator is zero, the division is `0/0`, and the result
is NaN (`none`) rather than `d`. -/
theorem claim_C3 (a b d : ℝ) :
    (¬ (a = d ∧ b = 0) →
      GetWilkinsonShift (ofRows [[some a, some b], [some b, some d]]) =
        some (d - signR ((a - d) / 2) * b * b /
          (|(a - d) / 2| + Real.sqrt ((a - d) / 2 * ((a - d) / 2) + b * b)))) ∧
    (a = d ∧ b = 0 →
      GetWilkinsonShift (ofRows [[some a, some b], [some b, some d]]) = none) := by
  constructor
  · intro h
    rw [wilkinson_eval, if_neg (fun hc => h ((wilkinson_coeff_eq_zero_iff a b d).mp hc))]
  · intro h
    rw [wilkinson_eval, if_pos ((wilkinson_coeff_eq_zero_iff a b d).mpr h)]

/-- Witness for claim C3 at the concrete input `[[0,1],[1,0]]`. -/
theorem claim_C3_witness :
    GetWilkinsonShift (ofRows [[some 0, some 1], [some 1, some 0]]) =
      some (0 - signR ((0 - 0) / 2) * 1 * 1 /
        (|(0 - 0) / 2| + Real.sqrt ((0 - 0) / 2 * ((0 - 0) / 2) + 1 * 1))) :=
  (claim_C3 0 1 0).1 (by norm_num)

end LibA

namespace LibA

/-! ## Claim C7: the bidiagonal QR sweep -/

theorem identity2_eval :
    Matrix.Identity 2 (1 : NR) = ⟨2, [some 1, some 0, some 0, some 1]⟩ := by
  with_unfolding_all rfl

theorem givensR01_nan (a b c d : NR) (x : NR) :
    GivensRightRotation ⟨2, [a, b, c, d]⟩ 0 1 none x = ⟨2, [none, none, none, none]⟩ := by
  unfold GivensRightRotation
  rw [if_neg (by simp)]
  cases x <;> with_unfolding_all rfl

theorem givensL01_nan (a b c d : NR) (x : NR) :
    GivensLeftRotation ⟨2, [a, b, c, d]⟩ 0 1 none x = ⟨2, [none, none, none, none]⟩ := by
  unfold GivensLeftRotation
  rw [if_neg (by simp)]
  cases x <;> with_unfolding_all rfl

theorem roundZeroes_nan :
    Matrix.RoundZeroes (IsZeroFloating (α := NR)) ⟨2, [none, none, none, none]⟩ =
      ⟨2, [none, none, none, none]⟩ := by
  with_unfolding_all rfl

end LibA

namespace LibA

theorem z_el (i j : Nat) :
    (⟨2, [some 0, some 0, some 0, some 0]⟩ : Matrix NR).el i j = some 0 := by
  have h := getD_zero_of_all_zero
    (α := NR) [some 0, some 0, some 0, some 0] (by intro x hx; simp at hx; simp [hx])
  exact h _

theorem n_el00 : (⟨2, [none, none, none, none]⟩ : Matrix NR).el 0 0 = none := by
  with_unfolding_all rfl

theorem n_el10 : (⟨2, [none, none, none, none]⟩ : Matrix NR).el 1 0 = none := by
  with_unfolding_all rfl

theorem wilkinson_zero_block :
    GetWilkinsonShift (ofRows [[some 0, some 0], [some 0, some 0]]) = none := by
  rw [wilkinson_eval 0 0 0]
  rw [if_pos (by norm_num [Real.sqrt_zero])]

theorem cols_mk4 (a b c d : NR) : (⟨2, [a, b, c, d]⟩ : Matrix NR).Columns = 2 := by
  with_unfolding_all rfl

theorem rows_mk4 (a b c d : NR) : (⟨2, [a, b, c, d]⟩ : Matrix NR).Rows = 2 := rfl

theorem sweep_zero_eval :
    bidiagSweep 2 2 2
      (⟨2, [some 1, some 0, some 0, some 1]⟩, ⟨2, [some 0, some 0, some 0, some 0]⟩,
        ⟨2, [some 1, some 0, some 0, some 1]⟩) =
      (⟨2, [none, none, none, none]⟩, ⟨2, [none, none, none, none]⟩,
        ⟨2, [none, none, none, none]⟩) := by
  unfold bidiagSweep
  dsimp only
  simp only [z_el]
  have hBB : (ofRows
      [[some 0 * some 0 + if 3 ≤ 2 then some 0 * some 0 else 0, some 0 * some 0],
        [some 0 * some 0, some 0 * some 0 + some 0 * some 0]] : Matrix NR) =
      ofRows [[some 0, some 0], [some 0, some 0]] := by
    simp only [nr_zero_def]
    norm_num
  rw [hBB, wilkinson_zero_block]
  simp only [List.range_succ, List.range_zero, List.nil_append, List.foldl_cons,
    List.foldl_nil]
  simp only [cols_mk4, rows_mk4, z_el, nr_mul_some, nr_sub_none_right, lt_self_iff_false,
    if_false, Nat.zero_add, Nat.lt_irrefl]
  norm_num [cols_mk4, rows_mk4, givensR01_nan, givensL01_nan, n_el00, n_el10,
    roundZeroes_nan]

theorem mulM_nan :
    mulM (⟨2, [none, none, none, none]⟩ : Matrix NR) ⟨2, [none, none, none, none]⟩ =
      ⟨2, [none, none, none, none]⟩ := by
  with_unfolding_all rfl

theorem eqM_nan_false :
    Matrix.eqM (⟨2, [none, none, none, none]⟩ : Matrix NR)
      (ofRows [[some 0, some 0], [some 0, some 0]]) = false := by
  with_unfolding_all rfl

/-- Claim C7 counterexample: on the 2×2 bidiagonal zero matrix with one
sweep, the Wilkinson-shift denominator is zero, the NaN shift
contaminates every Givens rotation, and all three returned factors are
entirely NaN; their product does not equal the input within tolerance
(every comparison against NaN is false), while the claim demands
equality for every `it_cnt >= 0`. -/
theorem claim_C7_counterexample :
    BidiagonalAlgorithmQR (ofRows [[some 0, some 0], [some 0, some 0]]) 1 =
      (⟨2, [none, none, none, none]⟩, ⟨2, [none, none, none, none]⟩,
        ⟨2, [none, none, none, none]⟩) ∧
    Matrix.eqM
      (mulM (mulM (BidiagonalAlgorithmQR (ofRows [[some 0, some 0], [some 0, some 0]]) 1).1
          (BidiagonalAlgorithmQR (ofRows [[some 0, some 0], [some 0, some 0]]) 1).2.1)
        (BidiagonalAlgorithmQR (ofRows [[some 0, some 0], [some 0, some 0]]) 1).2.2)
      (ofRows [[some 0, some 0], [some 0, some 0]]) = false := by
  have h1 : BidiagonalAlgorithmQR (ofRows [[some 0, some 0], [some 0, some 0]]) 1 =
      (⟨2, [none, none, none, none]⟩, ⟨2, [none, none, none, none]⟩,
        ⟨2, [none, none, none, none]⟩) := by
    unfold BidiagonalAlgorithmQR
    dsimp only
    rw [show (ofRows [[some 0, some 0], [some 0, some 0]] : Matrix NR).Rows = 2 from rfl,
      show (ofRows [[some 0, some 0], [some 0, some 0]] : Matrix NR).Columns = 2 from
        (by with_unfolding_all rfl),
      show min 2 2 = 2 from rfl, identity2_eval,
      show (ofRows [[some 0, some 0], [some 0, some 0]] : Matrix NR) =
        ⟨2, [some 0, some 0, some 0, some 0]⟩ from rfl]
    exact sweep_zero_eval
  refine ⟨h1, ?_⟩
  rw [h1]
  dsimp only
  rw [mulM_nan, mulM_nan, eqM_nan_false]

theorem isEqN_refl (a : ℝ) : IsEqualFloating (some a : NR) (some a) = true := by
  show (if |a - a| < ((epsTol : ℚ) : ℝ) then true else false) = true
  rw [sub_self, abs_zero,
    if_pos (by exact_mod_cast (by norm_num [epsTol] : (0 : ℚ) < epsTol))]

theorem identityB2_rows : (Matrix.Identity 2 (1 : NR)).Rows = 2 := by
  rw [identity2_eval]
  rfl

theorem mulM_I2_left (p q r s : ℝ) :
    mulM (Matrix.Identity 2 (1 : NR)) ⟨2, [some p, some q, some r, some s]⟩ =
      ⟨2, [some p, some q, some r, some s]⟩ := by
  rw [identity2_eval]
  unfold mulM dotA
  simp only [cols_mk4, rows_mk4, List.range_succ, List.range_zero, List.nil_append,
    List.map_cons, List.map_nil, List.foldl_cons, List.foldl_nil]
  norm_num [Matrix.el, Matrix.Columns, Matrix.Rows]
  simp only [nr_zero_def, nr_add_some]
  norm_num

theorem mulM_I2_right (p q r s : ℝ) :
    mulM (⟨2, [some p, some q, some r, some s]⟩ : Matrix NR) (Matrix.Identity 2 (1 : NR)) =
      ⟨2, [some p, some q, some r, some s]⟩ := by
  rw [identity2_eval]
  unfold mulM dotA
  simp only [cols_mk4, rows_mk4, List.range_succ, List.range_zero, List.nil_append,
    List.map_cons, List.map_nil, List.foldl_cons, List.foldl_nil]
  norm_num [Matrix.el, Matrix.Columns, Matrix.Rows]
  simp only [nr_zero_def, nr_add_some]
  norm_num

theorem eqM_some_refl (p q r s : ℝ) :
    Matrix.eqM (⟨2, [some p, some q, some r, some s]⟩ : Matrix NR)
      ⟨2, [some p, some q, some r, some s]⟩ = true := by
  unfold Matrix.eqM Matrix.applyFold
  rw [if_neg (by simp)]
  rw [if_neg (by rw [cols_mk4, rows_mk4]; simp)]
  simp only [List.enum, List.enumFrom, List.foldl_cons, List.foldl_nil, cols_mk4]
  norm_num [Matrix.el, Matrix.Columns, isEqN_refl]

/-- Claim C7 (amended): with `it_cnt = 0` (the loop body never runs) the
algorithm returns `U` and `V^T` as fresh identities and `S` as the copy
of the 2×2 bidiagonal input `B`, and the product `U * S * V^T` equals
`B` within tolerance (here exactly).  For `it_cnt >= 1` a zero trailing
block makes the Wilkinson denominator zero and NaN contaminates all
three factors (see the counterexample). -/
theorem claim_C7 (x y z : ℝ) :
    BidiagonalAlgorithmQR (ofRows [[some x, some y], [some 0, some z]]) 0 =
      (Matrix.Identity 2 (1 : NR), ofRows [[some x, some y], [some 0, some z]],
        Matrix.Identity 2 (1 : NR)) ∧
    Matrix.eqM
      (mulM (mulM (BidiagonalAlgorithmQR (ofRows [[some x, some y], [some 0, some z]]) 0).1
          (BidiagonalAlgorithmQR (ofRows [[some x, some y], [some 0, some z]]) 0).2.1)
        (BidiagonalAlgorithmQR (ofRows [[some x, some y], [some 0, some z]]) 0).2.2)
      (ofRows [[some x, some y], [some 0, some z]]) = true := by
  have h0 : BidiagonalAlgorithmQR (ofRows [[some x, some y], [some 0, some z]]) 0 =
      (Matrix.Identity 2 (1 : NR), ofRows [[some x, some y], [some 0, some z]],
        Matrix.Identity 2 (1 : NR)) := by
    with_unfolding_all rfl
  refine ⟨h0, ?_⟩
  rw [h0]
  dsimp only
  rw [show (ofRows [[some x, some y], [some 0, some z]] : Matrix NR) =
    ⟨2, [some x, some y, some 0, some z]⟩ from rfl]
  rw [mulM_I2_left, mulM_I2_right, eqM_some_refl]

end LibA

namespace LibB

/-! ## Claim C5: the in-place cycle-leader transpose -/

theorem listSwap_length [Zero α] (l : List α) (a b : Nat) :
    (listSwap l a b).length = l.length := by
  unfold listSwap
  rw [List.length_set, List.length_set]

theorem getD_set (l : List β) (a k : Nat) (v d : β) :
    (l.set a v).getD k d = if k = a ∧ a < l.length then v else l.getD k d := by
  rw [List.getD_eq_getElem?_getD, List.getD_eq_getElem?_getD, List.getElem?_set]
  by_cases h1 : a = k
  · subst h1
    by_cases h2 : a < l.length
    · simp [h2]
    · rw [if_pos rfl, if_neg h2, if_neg (by tauto)]
      rw [List.getElem?_eq_none (by omega)]
  · rw [if_neg h1, if_neg (by tauto)]

theorem listSwap_getD [Zero α] (l : List α) (a b k : Nat)
    (ha : a < l.length) (hb : b < l.length) :
    (listSwap l a b).getD k 0 =
      if k = b then l.getD a 0 else if k = a then l.getD b 0 else l.getD k 0 := by
  unfold listSwap
  rw [getD_set, List.length_set, getD_set]
  by_cases hkb : k = b
  · rw [if_pos ⟨hkb, hb⟩, if_pos hkb]
  · rw [if_neg (by tauto), if_neg hkb]
    by_cases hka : k = a
    · rw [if_pos ⟨hka, ha⟩, if_pos hka]
    · rw [if_neg (by tauto), if_neg hka]

theorem getD_replicate_false (n k : Nat) :
    (List.replicate n false).getD k false = false := by
  rw [List.getD_eq_getElem?_getD]
  cases h : (List.replicate n false)[k]? with
  | none => rfl
  | some v =>
    have := List.getElem?_mem h
    rw [List.eq_of_mem_replicate this]
    rfl

theorem one_le_pred (n : Nat) (h2 : 2 ≤ n) : 1 ≤ n - 1 := by omega

theorem coprime_rows_pred (r c n : Nat) (hn : n = r * c) (h2 : 2 ≤ n) :
    Nat.Coprime r (n - 1) := by
  have hd1 : Nat.gcd r (n - 1) ∣ r := Nat.gcd_dvd_left _ _
  have hd2 : Nat.gcd r (n - 1) ∣ n - 1 := Nat.gcd_dvd_right _ _
  have hdn : Nat.gcd r (n - 1) ∣ n := by
    nth_rewrite 2 [hn]
    exact Dvd.dvd.mul_right hd1 c
  have h1 : Nat.gcd r (n - 1) ∣ 1 := by
    have := Nat.dvd_sub' hdn hd2
    rwa [show n - (n - 1) = 1 by omega] at this
  exact Nat.dvd_one.mp h1

theorem sigma_last (r n : Nat) : cycleNext r (n - 1) (n - 1) = n - 1 := by
  unfold cycleNext
  rw [if_pos rfl]

theorem sigma_zero (r n : Nat) (h2 : 2 ≤ n) : cycleNext r (n - 1) 0 = 0 := by
  unfold cycleNext
  rw [if_neg (by omega), Nat.mul_zero, Nat.zero_mod]

theorem sigma_lt_of_lt (r n : Nat) (h2 : 2 ≤ n) (k : Nat) (hk : k < n - 1) :
    cycleNext r (n - 1) k < n - 1 := by
  unfold cycleNext
  rw [if_neg (by omega)]
  exact Nat.mod_lt _ (by omega)

theorem sigma_le (r n : Nat) (h2 : 2 ≤ n) (k : Nat) (hk : k ≤ n - 1) :
    cycleNext r (n - 1) k ≤ n - 1 := by
  rcases Nat.lt_or_ge k (n - 1) with h | h
  · exact Nat.le_of_lt (sigma_lt_of_lt r n h2 k h)
  · have : k = n - 1 := by omega
    rw [this, sigma_last]

theorem sigma_pos (r c n : Nat) (hn : n = r * c) (h2 : 2 ≤ n) (k : Nat)
    (h1 : 1 ≤ k) (hk : k ≤ n - 1) : 1 ≤ cycleNext r (n - 1) k := by
  rcases Nat.lt_or_ge k (n - 1) with h | h
  · unfold cycleNext
    rw [if_neg (by omega)]
    by_contra hzero
    have hmod : (r * k) % (n - 1) = 0 := by omega
    have hdvd : (n - 1) ∣ r * k := Nat.dvd_of_mod_eq_zero hmod
    have hcop : Nat.Coprime (n - 1) r := (coprime_rows_pred r c n hn h2).symm
    have hdk : (n - 1) ∣ k := hcop.dvd_of_dvd_mul_left hdvd
    have := Nat.eq_zero_of_dvd_of_lt hdk h
    omega
  · have : k = n - 1 := by omega
    rw [this, sigma_last]
    omega

theorem sigma_inj (r c n : Nat) (hn : n = r * c) (h2 : 2 ≤ n) (a b : Nat)
    (hA : a ≤ n - 1) (hB : b ≤ n - 1)
    (h : cycleNext r (n - 1) a = cycleNext r (n - 1) b) : a = b := by
  rcases Nat.lt_or_ge a (n - 1) with ha | ha <;> rcases Nat.lt_or_ge b (n - 1) with hb | hb
  · unfold cycleNext at h
    rw [if_neg (by omega), if_neg (by omega)] at h
    have hmod : r * a ≡ r * b [MOD n - 1] := h
    have := Nat.ModEq.cancel_left_of_coprime
      (by rw [Nat.gcd_comm]; exact coprime_rows_pred r c n hn h2) hmod
    have : a % (n - 1) = b % (n - 1) := this
    rwa [Nat.mod_eq_of_lt ha, Nat.mod_eq_of_lt hb] at this
  · have hbe : b = n - 1 := by omega
    rw [hbe, sigma_last] at h
    unfold cycleNext at h
    rw [if_neg (by omega)] at h
    have := Nat.mod_lt (r * a) (show 0 < n - 1 by omega)
    omega
  · have hae : a = n - 1 := by omega
    rw [hae, sigma_last] at h
    unfold cycleNext at h
    rw [if_neg (by omega)] at h
    have := Nat.mod_lt (r * b) (show 0 < n - 1 by omega)
    omega
  · omega

theorem iterate_range (r c n : Nat) (hn : n = r * c) (h2 : 2 ≤ n) (i : Nat)
    (h1 : 1 ≤ i) (hi : i ≤ n - 1) (t : Nat) :
    1 ≤ (cycleNext r (n - 1))^[t] i ∧ (cycleNext r (n - 1))^[t] i ≤ n - 1 := by
  induction t with
  | zero => exact ⟨h1, hi⟩
  | succ t ih =>
    rw [Function.iterate_succ_apply']
    exact ⟨sigma_pos r c n hn h2 _ ih.1 ih.2, sigma_le r n h2 _ ih.2⟩

theorem iterate_inj (r c n : Nat) (hn : n = r * c) (h2 : 2 ≤ n) (t a b : Nat)
    (hA : a ≤ n - 1) (hB : b ≤ n - 1)
    (h : (cycleNext r (n - 1))^[t] a = (cycleNext r (n - 1))^[t] b) : a = b := by
  induction t generalizing a b with
  | zero => exact h
  | succ t ih =>
    rw [Function.iterate_succ_apply, Function.iterate_succ_apply] at h
    exact sigma_inj r c n hn h2 a b hA hB
      (ih _ _ (sigma_le r n h2 a hA) (sigma_le r n h2 b hB) h)

theorem periodic_pt (r c n : Nat) (hn : n = r * c) (h2 : 2 ≤ n) (i : Nat)
    (h1 : 1 ≤ i) (hi : i ≤ n - 1) :
    i ∈ Function.periodicPts (cycleNext r (n - 1)) := by
  have hmaps : ∀ s ∈ Finset.range (n + 1), (cycleNext r (n - 1))^[s] i ∈
      Finset.Icc 1 (n - 1) := by
    intro s _
    have := iterate_range r c n hn h2 i h1 hi s
    exact Finset.mem_Icc.mpr this
  have hcard : (Finset.Icc 1 (n - 1)).card < (Finset.range (n + 1)).card := by
    rw [Nat.card_Icc, Finset.card_range]
    omega
  obtain ⟨a, ha, b, hb, hne, heq⟩ :=
    Finset.exists_ne_map_eq_of_card_lt_of_maps_to hcard hmaps
  rcases Nat.lt_or_ge a b with hab | hab
  · refine Function.mk_mem_periodicPts (n := b - a) (by omega) ?_
    unfold Function.IsPeriodicPt Function.IsFixedPt
    have : (cycleNext r (n - 1))^[a] ((cycleNext r (n - 1))^[b - a] i) =
        (cycleNext r (n - 1))^[a] i := by
      rw [← Function.iterate_add_apply]
      rw [show a + (b - a) = b by omega]
      exact heq.symm
    exact iterate_inj r c n hn h2 a _ i
      (iterate_range r c n hn h2 i h1 hi _).2 hi this
  · have hba : b < a := by omega
    refine Function.mk_mem_periodicPts (n := a - b) (by omega) ?_
    unfold Function.IsPeriodicPt Function.IsFixedPt
    have : (cycleNext r (n - 1))^[b] ((cycleNext r (n - 1))^[a - b] i) =
        (cycleNext r (n - 1))^[b] i := by
      rw [← Function.iterate_add_apply]
      rw [show b + (a - b) = a by omega]
      exact heq
    exact iterate_inj r c n hn h2 b _ i
      (iterate_range r c n hn h2 i h1 hi _).2 hi this

theorem minimalPeriod_le (r c n : Nat) (hn : n = r * c) (h2 : 2 ≤ n) (i : Nat)
    (h1 : 1 ≤ i) (hi : i ≤ n - 1) :
    Function.minimalPeriod (cycleNext r (n - 1)) i ≤ n - 1 := by
  set p := Function.minimalPeriod (cycleNext r (n - 1)) i with hp
  have hinj : Set.InjOn (fun s => (cycleNext r (n - 1))^[s] i)
      ↑(Finset.range p) := by
    intro a ha b hb hab
    exact Function.iterate_injOn_Iio_minimalPeriod
      (by simpa using Finset.mem_coe.mp ha) (by simpa using Finset.mem_coe.mp hb) hab
  have hmaps : ∀ s ∈ Finset.range p, (cycleNext r (n - 1))^[s] i ∈
      Finset.Icc 1 (n - 1) := by
    intro s _
    exact Finset.mem_Icc.mpr (iterate_range r c n hn h2 i h1 hi s)
  have := Finset.card_le_card_of_injOn _ hmaps hinj
  rw [Finset.card_range, Nat.card_Icc] at this
  omega

end LibB

namespace LibB

theorem doCycle_walk [Zero α] (r c n : Nat) (hn : n = r * c) (h2 : 2 ≤ n)
    (i p : Nat) (h1i : 1 ≤ i) (hi : i ≤ n - 1)
    (hp : Function.minimalPeriod (cycleNext r (n - 1)) i = p) :
    ∀ (fuel j : Nat) (buf : List α) (vis : List Bool),
      j < p → p - j ≤ fuel → buf.length = n → vis.length = n →
      ∃ bufF visF,
        doCycle r (n - 1) i fuel (buf, vis) ((cycleNext r (n - 1))^[j] i) =
          (bufF, visF) ∧
        bufF.length = n ∧ visF.length = n ∧
        (∀ t, j < t → t ≤ p →
          bufF.getD ((cycleNext r (n - 1))^[t] i) 0 =
            if t = j + 1 then buf.getD i 0
            else buf.getD ((cycleNext r (n - 1))^[t - 1] i) 0) ∧
        (∀ x, (∀ t, j < t → t ≤ p → x ≠ (cycleNext r (n - 1))^[t] i) →
          bufF.getD x 0 = buf.getD x 0) ∧
        (∀ t, j < t → t ≤ p →
          visF.getD ((cycleNext r (n - 1))^[t] i) false = true) ∧
        (∀ x, (∀ t, j < t → t ≤ p → x ≠ (cycleNext r (n - 1))^[t] i) →
          visF.getD x false = vis.getD x false) := by
  set f := cycleNext r (n - 1) with hf
  have hper : f^[p] i = i := by
    rw [← hp]
    exact Function.iterate_minimalPeriod
  have hdist : ∀ a b, a < p → b < p → f^[a] i = f^[b] i → a = b := by
    intro a b ha hb h
    exact Function.iterate_injOn_Iio_minimalPeriod
      (by rw [hp]; exact Set.mem_Iio.mpr ha) (by rw [hp]; exact Set.mem_Iio.mpr hb) h
  have hlt : ∀ t, f^[t] i < n := by
    intro t
    have h := (iterate_range r c n hn h2 i h1i hi t).2
    rw [← hf] at h
    omega
  intro fuel
  induction fuel with
  | zero =>
    intro j buf vis hj hfuel hbl hvl
    omega
  | succ fuel ih =>
    intro j buf vis hj hfuel hbl hvl
    have hnxt : f (f^[j] i) = f^[j + 1] i := (Function.iterate_succ_apply' f j i).symm
    by_cases hstop : f (f^[j] i) = i
    · have hj1 : j + 1 = p := by
        by_contra hne
        have hlt' : j + 1 < p := by omega
        have : f^[j + 1] i = f^[0] i := by
          rw [Function.iterate_zero_apply, ← hnxt]
          exact hstop
        have := hdist (j + 1) 0 hlt' (by omega) this
        omega
      refine ⟨listSwap buf (f (f^[j] i)) i, vis.set (f (f^[j] i)) true, ?_, ?_, ?_, ?_, ?_, ?_, ?_⟩
      · show doCycle r (n - 1) i (fuel + 1) (buf, vis) (f^[j] i) = _
        unfold doCycle
        rw [← hf]
        rw [if_pos hstop]
      · rw [listSwap_length, hbl]
      · rw [List.length_set, hvl]
      · intro t ht1 ht2
        have ht : t = p := by omega
        subst ht
        rw [hper, hstop, listSwap_getD _ _ _ _ (by rw [hbl]; omega) (by rw [hbl]; omega)]
        rw [if_pos rfl, if_pos (by omega)]
      · intro x hx
        have hxi : x ≠ i := by
          have := hx p (by omega) (by omega)
          rwa [hper] at this
        rw [hstop, listSwap_getD _ _ _ _ (by rw [hbl]; omega) (by rw [hbl]; omega)]
        rw [if_neg hxi, if_neg hxi]
      · intro t ht1 ht2
        have ht : t = p := by omega
        subst ht
        rw [hper, hstop, getD_set]
        rw [if_pos ⟨rfl, by rw [hvl]; omega⟩]
      · intro x hx
        have hxi : x ≠ i := by
          have := hx p (by omega) (by omega)
          rwa [hper] at this
        rw [hstop, getD_set, if_neg (by tauto)]
    · have hj1 : j + 1 < p := by
        rcases Nat.lt_or_ge (j + 1) p with h | h
        · exact h
        · have : j + 1 = p := by omega
          rw [hnxt, this, hper] at hstop
          exact absurd rfl hstop
      have hnxti : f^[j + 1] i ≠ i := by
        intro h
        have : f^[j + 1] i = f^[0] i := by rw [Function.iterate_zero_apply]; exact h
        have := hdist (j + 1) 0 hj1 (by omega) this
        omega
      obtain ⟨bufF, visF, heq, hlb, hlv, hbufT, hbufU, hvisT, hvisU⟩ :=
        ih (j + 1) (listSwap buf (f (f^[j] i)) i) (vis.set (f (f^[j] i)) true)
          hj1 (by omega) (by rw [listSwap_length, hbl]) (by rw [List.length_set, hvl])
      refine ⟨bufF, visF, ?_, hlb, hlv, ?_, ?_, ?_, ?_⟩
      · show doCycle r (n - 1) i (fuel + 1) (buf, vis) (f^[j] i) = _
        unfold doCycle
        rw [← hf]
        rw [if_neg hstop]
        rw [hnxt] at heq ⊢
        exact heq
      · intro t ht1 ht2
        by_cases ht : t = j + 1
        · subst ht
          have hx : ∀ t', j + 1 < t' → t' ≤ p → f^[j + 1] i ≠ f^[t'] i := by
            intro t' ht'1 ht'2 habs
            by_cases ht'p : t' = p
            · rw [ht'p, hper] at habs
              exact hnxti habs
            · have := hdist (j + 1) t' hj1 (by omega) habs
              omega
          have := hbufU _ hx
          rw [this, hnxt, listSwap_getD _ _ _ _ (by rw [hbl]; exact hlt _) (by rw [hbl]; omega)]
          rw [if_neg hnxti, if_pos rfl, if_pos rfl]
        · have htj2 : j + 1 < t := by omega
          have := hbufT t htj2 ht2
          rw [this]
          by_cases ht2' : t = j + 2
          · rw [if_pos (by omega), if_neg ht]
            rw [hnxt, listSwap_getD _ _ _ _ (by rw [hbl]; exact hlt _) (by rw [hbl]; omega)]
            rw [if_pos rfl]
            rw [show t - 1 = j + 1 by omega]
          · rw [if_neg (by omega), if_neg ht]
            have hta : f^[t - 1] i ≠ i := by
              intro h
              have : f^[t - 1] i = f^[0] i := by rw [Function.iterate_zero_apply]; exact h
              have := hdist (t - 1) 0 (by omega) (by omega) this
              omega
            have htb : f^[t - 1] i ≠ f^[j + 1] i := by
              intro h
              have := hdist (t - 1) (j + 1) (by omega) hj1 h
              omega
            rw [hnxt, listSwap_getD _ _ _ _ (by rw [hbl]; exact hlt _) (by rw [hbl]; omega)]
            rw [if_neg hta, if_neg htb]
      · intro x hx
        have hxnxt : x ≠ f^[j + 1] i := hx (j + 1) (by omega) (by omega)
        have hxi : x ≠ i := by
          have := hx p (by omega) (by omega)
          rwa [hper] at this
        have := hbufU x (fun t' ht'1 ht'2 => hx t' (by omega) ht'2)
        rw [this, hnxt, listSwap_getD _ _ _ _ (by rw [hbl]; exact hlt _) (by rw [hbl]; omega)]
        rw [if_neg hxi, if_neg hxnxt]
      · intro t ht1 ht2
        by_cases ht : t = j + 1
        · subst ht
          have hx : ∀ t', j + 1 < t' → t' ≤ p → f^[j + 1] i ≠ f^[t'] i := by
            intro t' ht'1 ht'2 habs
            by_cases ht'p : t' = p
            · rw [ht'p, hper] at habs
              exact hnxti habs
            · have := hdist (j + 1) t' hj1 (by omega) habs
              omega
          have := hvisU _ hx
          rw [this, hnxt, getD_set, if_pos ⟨rfl, by rw [hvl]; exact hlt _⟩]
        · exact hvisT t (by omega) ht2
      · intro x hx
        have hxnxt : x ≠ f^[j + 1] i := hx (j + 1) (by omega) (by omega)
        have := hvisU x (fun t' ht'1 ht'2 => hx t' (by omega) ht'2)
        rw [this, hnxt, getD_set, if_neg (by tauto)]

end LibB

namespace LibB

theorem divmod_unique_helper (c x y i j : Nat) (hic : i < c) (hyc : y < c)
    (h : c * j + i = c * x + y) : j = x ∧ i = y := by
  have hc : 0 < c := by omega
  have h1 : (c * j + i) / c = j := by
    rw [Nat.mul_add_div hc, Nat.div_eq_of_lt hic]
    omega
  have h2 : (c * x + y) / c = x := by
    rw [Nat.mul_add_div hc, Nat.div_eq_of_lt hyc]
    omega
  have h3 : (c * j + i) % c = i := by
    rw [Nat.mul_add_mod, Nat.mod_eq_of_lt hic]
  have h4 : (c * x + y) % c = y := by
    rw [Nat.mul_add_mod, Nat.mod_eq_of_lt hyc]
  constructor
  · rw [← h1, h, h2]
  · rw [← h3, h, h4]

theorem pred_decomp (r c n : Nat) (hn : n = r * c) (hr : 1 ≤ r) (hc : 1 ≤ c) :
    n - 1 = c * (r - 1) + (c - 1) := by
  have h1 : c * (r - 1) + c = c * r := by
    cases r with
    | zero => omega
    | succ r' => rw [Nat.succ_sub_one, Nat.mul_succ]
  have h2 : c * r = r * c := Nat.mul_comm c r
  omega

theorem sigma_index (r c n : Nat) (hn : n = r * c) (h2 : 2 ≤ n) (i j : Nat)
    (hi : i < c) (hj : j < r) :
    cycleNext r (n - 1) (c * j + i) = r * i + j := by
  have hr1 : 1 ≤ r := by
    by_contra h
    have : r = 0 := by omega
    rw [this] at hn
    omega
  have hc1 : 1 ≤ c := by
    by_contra h
    have : c = 0 := by omega
    rw [this, Nat.mul_zero] at hn
    omega
  have hdec1 : n - 1 = c * (r - 1) + (c - 1) := pred_decomp r c n hn hr1 hc1
  have hdec2 : n - 1 = r * (c - 1) + (r - 1) :=
    pred_decomp c r n (by rw [hn, Nat.mul_comm]) hc1 hr1
  by_cases hk : c * j + i = n - 1
  · have huniq := divmod_unique_helper c (r - 1) (c - 1) i j hi (by omega)
      (by rw [hk, hdec1])
    rw [hk, sigma_last, huniq.1, huniq.2, hdec2]
  · have hklt : c * j + i < n - 1 := by
      have hle : c * j ≤ c * (r - 1) := Nat.mul_le_mul_left c (by omega)
      omega
    have hub : r * i + j ≤ n - 1 := by
      have hle : r * i ≤ r * (c - 1) := Nat.mul_le_mul_left r (by omega)
      omega
    have hne : r * i + j ≠ n - 1 := by
      intro habs
      have huniq := divmod_unique_helper r (c - 1) (r - 1) j i hj (by omega)
        (by rw [habs, hdec2])
      apply hk
      rw [huniq.1, huniq.2, hdec1]
    have e2 : n * j = (n - 1) * j + j := by
      have hn1 : (n - 1) + 1 = n := by omega
      calc n * j = ((n - 1) + 1) * j := by rw [hn1]
      _ = (n - 1) * j + j := by ring
    have e3 : r * (c * j + i) = (n - 1) * j + (j + r * i) := by
      calc r * (c * j + i) = r * c * j + r * i := by ring
      _ = n * j + r * i := by rw [← hn]
      _ = ((n - 1) * j + j) + r * i := by rw [← e2]
      _ = (n - 1) * j + (j + r * i) := by ring
    unfold cycleNext
    rw [if_neg hk, e3, Nat.mul_add_mod, Nat.mod_eq_of_lt (by omega)]
    omega

end LibB

namespace LibB

theorem iterate_mem_closed (S : Finset Nat) (f : Nat → Nat)
    (hcl : ∀ k ∈ S, f k ∈ S) : ∀ (s k : Nat), k ∈ S → f^[s] k ∈ S := by
  intro s
  induction s with
  | zero => intro k hk; exact hk
  | succ s ih =>
    intro k hk
    rw [Function.iterate_succ_apply]
    exact ih _ (hcl k hk)

theorem transpose_fold_inv [Zero α] (r c n : Nat) (hn : n = r * c) (h2 : 2 ≤ n)
    (orig : List α) :
    ∀ (cnt first : Nat) (buf : List α) (vis : List Bool) (S : Finset Nat),
      1 ≤ first → first + cnt ≤ n →
      buf.length = n → vis.length = n →
      (∀ k ∈ S, 1 ≤ k ∧ k ≤ n - 1) →
      (∀ k ∈ S, cycleNext r (n - 1) k ∈ S) →
      (∀ k, 1 ≤ k → k < first → k ∈ S) →
      (∀ k, vis.getD k false = true ↔ k ∈ S) →
      (∀ k ∈ S, buf.getD (cycleNext r (n - 1) k) 0 = orig.getD k 0) →
      (∀ k, k ∉ S → buf.getD k 0 = orig.getD k 0) →
      ∃ (buf' : List α) (vis' : List Bool) (S' : Finset Nat),
        (List.range' first cnt 1).foldl
          (fun st i => if st.2.getD i false then st
            else doCycle r (n - 1) i n st i) (buf, vis) = (buf', vis') ∧
        buf'.length = n ∧ vis'.length = n ∧
        (∀ k ∈ S', 1 ≤ k ∧ k ≤ n - 1) ∧
        (∀ k ∈ S', cycleNext r (n - 1) k ∈ S') ∧
        (∀ k, 1 ≤ k → k < first + cnt → k ∈ S') ∧
        (∀ k, vis'.getD k false = true ↔ k ∈ S') ∧
        (∀ k ∈ S', buf'.getD (cycleNext r (n - 1) k) 0 = orig.getD k 0) ∧
        (∀ k, k ∉ S' → buf'.getD k 0 = orig.getD k 0) := by
  intro cnt
  induction cnt with
  | zero =>
    intro first buf vis S h1f hbound hbl hvl hS1 hS2 hS3 hS4 hS5 hS6
    exact ⟨buf, vis, S, rfl, hbl, hvl, hS1, hS2,
      fun k hk1 hk2 => hS3 k hk1 (by omega), hS4, hS5, hS6⟩
  | succ cnt ih =>
    intro first buf vis S h1f hbound hbl hvl hS1 hS2 hS3 hS4 hS5 hS6
    rw [List.range'_succ, List.foldl_cons]
    by_cases hv : vis.getD first false
    · rw [if_pos hv]
      obtain ⟨buf', vis', S', heq, hlb', hlv', h1', h2', h3', h4', h5', h6'⟩ :=
        ih (first + 1) buf vis S (by omega) (by omega) hbl hvl hS1 hS2
          (by
            intro k hk1 hk2
            by_cases hkf : k = first
            · exact (hS4 k).mp (hkf ▸ hv)
            · exact hS3 k hk1 (by omega))
          hS4 hS5 hS6
      exact ⟨buf', vis', S', heq, hlb', hlv', h1', h2',
        fun k hk1 hk2 => h3' k hk1 (by omega), h4', h5', h6'⟩
    · rw [if_neg hv]
      have hfS : first ∉ S := fun h => hv ((hS4 first).mpr h)
      have hfle : first ≤ n - 1 := by omega
      set f := cycleNext r (n - 1) with hf
      set p := Function.minimalPeriod f first with hpdef
      have hmem := periodic_pt r c n hn h2 first h1f hfle
      have hppos : 0 < p := Function.minimalPeriod_pos_of_mem_periodicPts hmem
      have hple : p ≤ n - 1 := minimalPeriod_le r c n hn h2 first h1f hfle
      have hper : f^[p] first = first := Function.iterate_minimalPeriod
      obtain ⟨bufF, visF, heq, hlb, hlv, hbufT, hbufU, hvisT, hvisU⟩ :=
        doCycle_walk r c n hn h2 first p h1f hfle rfl n 0 buf vis hppos (by omega) hbl hvl
      rw [Function.iterate_zero_apply] at heq
      -- the processed orbit
      set O : Finset Nat := (Finset.range p).image (fun t => f^[t] first) with hO
      have hOmem : ∀ x, x ∈ O ↔ ∃ t, t < p ∧ f^[t] first = x := by
        intro x
        rw [hO]
        simp only [Finset.mem_image, Finset.mem_range]
      have hfirstO : first ∈ O := (hOmem first).mpr ⟨0, hppos, rfl⟩
      have hdisj : ∀ x ∈ O, x ∉ S := by
        intro x hx hxS
        obtain ⟨t, ht, hxe⟩ := (hOmem x).mp hx
        have : f^[p - t] x ∈ S := iterate_mem_closed S f hS2 (p - t) x hxS
        rw [← hxe, ← Function.iterate_add_apply, show p - t + t = p by omega, hper] at this
        exact hfS this
      have hOrange : ∀ x ∈ O, 1 ≤ x ∧ x ≤ n - 1 := by
        intro x hx
        obtain ⟨t, ht, hxe⟩ := (hOmem x).mp hx
        rw [← hxe]
        have := iterate_range r c n hn h2 first h1f hfle t
        rw [← hf] at this
        exact this
      have hOclosed : ∀ x ∈ O, f x ∈ O := by
        intro x hx
        obtain ⟨t, ht, hxe⟩ := (hOmem x).mp hx
        rw [← hxe,
          show f (f^[t] first) = f^[t + 1] first from
            (Function.iterate_succ_apply' f t first).symm]
        by_cases htp : t + 1 = p
        · rw [htp, hper]
          exact hfirstO
        · exact (hOmem _).mpr ⟨t + 1, by omega, rfl⟩
      have hnotO : ∀ x, x ∉ O → ∀ t, 0 < t → t ≤ p → x ≠ f^[t] first := by
        intro x hxO t ht1 ht2 habs
        by_cases htp : t = p
        · rw [htp, hper] at habs
          exact hxO (habs ▸ hfirstO)
        · exact hxO (habs ▸ (hOmem _).mpr ⟨t, by omega, rfl⟩)
      -- invariant for the recursive call with S ∪ O
      obtain ⟨buf', vis', S', heq', hlb', hlv', hS1', hS2', hS3', hS4', hS5', hS6'⟩ :=
        ih (first + 1) bufF visF (S ∪ O) (by omega) (by omega) hlb hlv
          (by
            intro k hk
            rcases Finset.mem_union.mp hk with h | h
            · exact hS1 k h
            · exact hOrange k h)
          (by
            intro k hk
            rcases Finset.mem_union.mp hk with h | h
            · exact Finset.mem_union_left _ (hS2 k h)
            · exact Finset.mem_union_right _ (hOclosed k h))
          (by
            intro k hk1 hk2
            by_cases hkf : k = first
            · exact Finset.mem_union_right _ (hkf ▸ hfirstO)
            · exact Finset.mem_union_left _ (hS3 k hk1 (by omega)))
          (by
            intro k
            by_cases hkO : k ∈ O
            · obtain ⟨t, ht, hke⟩ := (hOmem k).mp hkO
              constructor
              · intro _
                exact Finset.mem_union_right _ hkO
              · intro _
                by_cases ht0 : t = 0
                · rw [← hke, ht0, Function.iterate_zero_apply]
                  have := hvisT p hppos (le_refl p)
                  rwa [hper] at this
                · rw [← hke]
                  exact hvisT t (by omega) (by omega)
            · have hunch := hvisU k (hnotO k hkO)
              rw [hunch, hS4]
              constructor
              · intro h
                exact Finset.mem_union_left _ h
              · intro h
                rcases Finset.mem_union.mp h with h | h
                · exact h
                · exact absurd h hkO)
          (by
            intro k hk
            rcases Finset.mem_union.mp hk with h | h
            · have hfkS : f k ∈ S := hS2 k h
              have hfkO : f k ∉ O := fun ho => hdisj _ ho hfkS
              rw [hbufU (f k) (hnotO _ hfkO)]
              exact hS5 k h
            · obtain ⟨t, ht, hke⟩ := (hOmem k).mp h
              have hkS : k ∉ S := hdisj k h
              rw [← hke,
                show f (f^[t] first) = f^[t + 1] first from
                  (Function.iterate_succ_apply' f t first).symm]
              rw [hbufT (t + 1) (by omega) (by omega)]
              by_cases ht0 : t = 0
              · rw [if_pos (by omega), ht0, Function.iterate_zero_apply]
                exact hS6 first hfS
              · rw [if_neg (by omega), Nat.add_sub_cancel]
                rw [hke]
                exact hS6 k hkS)
          (by
            intro k hk
            have hkS : k ∉ S := fun h => hk (Finset.mem_union_left _ h)
            have hkO : k ∉ O := fun h => hk (Finset.mem_union_right _ h)
            rw [hbufU k (hnotO k hkO)]
            exact hS6 k hkS)
      refine ⟨buf', vis', S', ?_, hlb', hlv', hS1', hS2',
        fun k hk1 hk2 => hS3' k hk1 (by omega), hS4', hS5', hS6'⟩
      rw [heq]
      exact heq'

theorem transpose_buffer_spec [Zero α] (r c n : Nat) (hn : n = r * c)
    (h2 : 2 ≤ n) (orig : List α) (hlen : orig.length = n) :
    ∃ st : List α × List Bool,
      (List.range' 1 (n - 1) 1).foldl
        (fun st i => if st.2.getD i false then st
          else doCycle r (n - 1) i n st i) (orig, List.replicate n false) = st ∧
      st.1.length = n ∧
      ∀ k, k ≤ n - 1 → st.1.getD (cycleNext r (n - 1) k) 0 = orig.getD k 0 := by
  obtain ⟨buf', vis', S', heq, hlb', hlv', hS1', hS2', hS3', hS4', hS5', hS6'⟩ :=
    transpose_fold_inv r c n hn h2 orig (n - 1) 1 orig
      (List.replicate n false) (∅ : Finset Nat)
      (by omega) (by omega) hlen (List.length_replicate n false)
      (by simp) (by simp) (by intro k hk1 hk2; omega)
      (by intro k; simp [getD_replicate_false])
      (by simp) (by intro k _; rfl)
  refine ⟨(buf', vis'), heq, hlb', ?_⟩
  intro k hk
  by_cases hk0 : k = 0
  · have h0S : 0 ∉ S' := fun h => by have := (hS1' 0 h).1; omega
    rw [hk0, sigma_zero r n h2]
    exact hS6' 0 h0S
  · have hkS : k ∈ S' := hS3' k (by omega) (by omega)
    exact hS5' k hkS

theorem transpose_def [Zero α] (m : Matrix α) :
    m.Transpose = ⟨m.Rows,
      ((List.range' 1 (m.buffer.length - 1) 1).foldl
        (fun st i => if st.2.getD i false then st
          else doCycle m.Rows (m.buffer.length - 1) i m.buffer.length st i)
        (m.buffer, List.replicate m.buffer.length false)).1⟩ := rfl

theorem transpose_spec [Zero α] (m : Matrix α)
    (hwf : m.buffer.length = m.Rows * m.Columns)
    (he : m.buffer = [] → m.cols = 0) :
    m.Transpose.Rows = m.Columns ∧ m.Transpose.Columns = m.Rows ∧
    m.Transpose.buffer.length = m.buffer.length ∧
    (∀ i j, i < m.Columns → j < m.Rows → m.Transpose.el i j = m.el j i) := by
  rcases Nat.lt_or_ge m.buffer.length 2 with hlt | h2
  · have hsmall : m.buffer.length = 0 ∨ m.buffer.length = 1 := by omega
    rcases hsmall with h0 | h1
    · have hbe : m.buffer = [] := List.length_eq_zero.mp h0
      have hc0 : m.cols = 0 := he hbe
      have hC0 : m.Columns = 0 := hc0
      have hR0 : m.Rows = 0 := by simp [Matrix.Rows, hc0]
      have hT : m.Transpose = ⟨m.Rows, ([] : List α)⟩ := by
        rw [transpose_def, hbe]
        rfl
      refine ⟨?_, ?_, ?_, ?_⟩
      · rw [hT, hC0, hR0]
        simp [Matrix.Rows]
      · rw [hT]
        rfl
      · rw [hT, hbe]
      · intro i j hi hj
        rw [hC0] at hi
        omega
    · have hrc1 : m.Rows * m.Columns = 1 := by omega
      have hR1 : m.Rows = 1 := by
        by_contra h
        rcases Nat.eq_zero_or_pos m.Rows with h0' | h1'
        · rw [h0', Nat.zero_mul] at hrc1
          omega
        · have hge : 2 ≤ m.Rows := by omega
          have hcpos : 1 ≤ m.Columns := by
            rcases Nat.eq_zero_or_pos m.Columns with hc' | hc'
            · rw [hc', Nat.mul_zero] at hrc1
              omega
            · omega
          have : 2 * 1 ≤ m.Rows * m.Columns := Nat.mul_le_mul hge hcpos
          omega
      have hC1 : m.Columns = 1 := by
        rw [hR1, Nat.one_mul] at hrc1
        exact hrc1
      have hT : m.Transpose = ⟨m.Rows, m.buffer⟩ := by
        rw [transpose_def, h1]
        rfl
      refine ⟨?_, ?_, ?_, ?_⟩
      · rw [hT, hC1, hR1]
        simp [Matrix.Rows, h1]
      · rw [hT]
        rfl
      · rw [hT]
      · intro i j hi hj
        rw [hC1] at hi
        rw [hR1] at hj
        have hi0 : i = 0 := by omega
        have hj0 : j = 0 := by omega
        rw [hi0, hj0, hT]
        simp [Matrix.el]
  · obtain ⟨st, hst, hstlen, hstel⟩ :=
      transpose_buffer_spec m.Rows m.Columns m.buffer.length hwf h2 m.buffer rfl
    have hT : m.Transpose = ⟨m.Rows, st.1⟩ := by
      rw [transpose_def, hst]
    have hr0 : m.Rows ≠ 0 := by
      intro h
      rw [h, Nat.zero_mul] at hwf
      omega
    refine ⟨?_, ?_, ?_, ?_⟩
    · rw [hT]
      show (if m.Rows = 0 then 0 else st.1.length / m.Rows) = m.Columns
      rw [if_neg hr0, hstlen, hwf,
        Nat.mul_div_cancel_left _ (Nat.pos_of_ne_zero hr0)]
    · rw [hT]
      rfl
    · rw [hT]
      exact hstlen
    · intro i j hi hj
      have hk : m.Columns * j + i ≤ m.buffer.length - 1 := by
        have ha : m.Columns * j + i < m.Columns * (j + 1) := by
          rw [Nat.mul_succ]
          omega
        have hb : m.Columns * (j + 1) ≤ m.Columns * m.Rows :=
          Nat.mul_le_mul_left _ (by omega)
        have hc : m.Columns * m.Rows = m.buffer.length := by
          rw [hwf, Nat.mul_comm]
        omega
      have hsig := sigma_index m.Rows m.Columns m.buffer.length hwf h2 i j hi hj
      have hval := hstel (m.Columns * j + i) hk
      rw [hsig] at hval
      rw [hT]
      simp only [Matrix.el, Matrix.Columns] at hval ⊢
      exact hval

theorem transpose_invol [Zero α] (m : Matrix α)
    (hwf : m.buffer.length = m.Rows * m.Columns)
    (he : m.buffer = [] → m.cols = 0) :
    m.Transpose.Transpose = m := by
  obtain ⟨hTr, hTc, hTlen, hTel⟩ := transpose_spec m hwf he
  have hwfT : m.Transpose.buffer.length = m.Transpose.Rows * m.Transpose.Columns := by
    rw [hTlen, hTr, hTc, hwf, Nat.mul_comm]
  have heT : m.Transpose.buffer = [] → m.Transpose.cols = 0 := by
    intro hb
    have h0 : m.buffer.length = 0 := by
      rw [← hTlen, hb]
      rfl
    have hc0 : m.cols = 0 := he (List.length_eq_zero.mp h0)
    show m.Transpose.Columns = 0
    rw [hTc]
    simp [Matrix.Rows, hc0]
  obtain ⟨hTTr, hTTc, hTTlen, hTTel⟩ := transpose_spec m.Transpose hwfT heT
  have hcols : m.Transpose.Transpose.cols = m.cols := by
    show m.Transpose.Transpose.Columns = m.Columns
    rw [hTTc, hTr]
  have hlen2 : m.Transpose.Transpose.buffer.length = m.buffer.length := by
    rw [hTTlen, hTlen]
  have hTTcolC : m.Transpose.Transpose.Columns = m.Columns := by
    rw [hTTc, hTr]
  have hbuf : m.Transpose.Transpose.buffer = m.buffer := by
    apply List.ext_getElem hlen2
    intro idx hidx1 hidx2
    have hcpos : 0 < m.Columns := by
      rcases Nat.eq_zero_or_pos m.Columns with h | h
      · rw [hwf, h, Nat.mul_zero] at hidx2
        omega
      · exact h
    have hs : idx % m.Columns < m.Columns := Nat.mod_lt _ hcpos
    have hq : idx / m.Columns < m.Rows :=
      Nat.div_lt_of_lt_mul (by rw [Nat.mul_comm m.Columns m.Rows, ← hwf]; exact hidx2)
    have hdm : m.Columns * (idx / m.Columns) + idx % m.Columns = idx :=
      Nat.div_add_mod idx m.Columns
    have e1 : m.Transpose.Transpose.buffer.getD idx 0 =
        m.Transpose.Transpose.el (idx / m.Columns) (idx % m.Columns) := by
      simp only [Matrix.el]
      rw [hTTcolC, hdm]
    have e2 : m.Transpose.Transpose.el (idx / m.Columns) (idx % m.Columns) =
        m.Transpose.el (idx % m.Columns) (idx / m.Columns) :=
      hTTel _ _ (by rw [hTc]; exact hq) (by rw [hTr]; exact hs)
    have e3 : m.Transpose.el (idx % m.Columns) (idx / m.Columns) =
        m.el (idx / m.Columns) (idx % m.Columns) := hTel _ _ hs hq
    have e4 : m.el (idx / m.Columns) (idx % m.Columns) = m.buffer.getD idx 0 := by
      simp only [Matrix.el]
      rw [hdm]
    have echain := (e1.trans e2).trans (e3.trans e4)
    rw [List.getD_eq_getElem _ _ hidx1, List.getD_eq_getElem _ _ hidx2] at echain
    exact echain
  calc m.Transpose.Transpose
      = ⟨m.Transpose.Transpose.cols, m.Transpose.Transpose.buffer⟩ := rfl
    _ = ⟨m.cols, m.buffer⟩ := by rw [hcols, hbuf]
    _ = m := rfl

/-- **C5**: on a well-formed storage (buffer length `rows * cols`, and the
empty buffer only with `cols_ = 0`, the invariant the constructors keep),
the in-place cycle-leader `Transpose` of `matrix.h` lines 685-706 swaps the
row and column counts, puts the original element `(j, i)` at position
`(i, j)`, and applying it twice restores the matrix exactly. -/
theorem claim_C5 [Zero α] (m : Matrix α)
    (hwf : m.buffer.length = m.Rows * m.Columns)
    (he : m.buffer = [] → m.cols = 0) :
    m.Transpose.Rows = m.Columns ∧ m.Transpose.Columns = m.Rows ∧
    (∀ i j, i < m.Columns → j < m.Rows → m.Transpose.el i j = m.el j i) ∧
    m.Transpose.Transpose = m := by
  obtain ⟨h1, h2, _, h4⟩ := transpose_spec m hwf he
  exact ⟨h1, h2, h4, transpose_invol m hwf he⟩

/-- Witness for C5 at a concrete 2 by 3 integer matrix. -/
theorem claim_C5_witness :
    ((Matrix.mk 3 [1, 2, 3, 4, 5, 6] : Matrix Int).buffer.length =
      (Matrix.mk 3 [1, 2, 3, 4, 5, 6] : Matrix Int).Rows *
        (Matrix.mk 3 [1, 2, 3, 4, 5, 6] : Matrix Int).Columns) ∧
    (((Matrix.mk 3 [1, 2, 3, 4, 5, 6] : Matrix Int).buffer = []) →
      (Matrix.mk 3 [1, 2, 3, 4, 5, 6] : Matrix Int).cols = 0) ∧
    ((Matrix.mk 3 [1, 2, 3, 4, 5, 6] : Matrix Int).Transpose.Rows =
        (Matrix.mk 3 [1, 2, 3, 4, 5, 6] : Matrix Int).Columns ∧
      (Matrix.mk 3 [1, 2, 3, 4, 5, 6] : Matrix Int).Transpose.Columns =
        (Matrix.mk 3 [1, 2, 3, 4, 5, 6] : Matrix Int).Rows ∧
      (∀ i j, i < (Matrix.mk 3 [1, 2, 3, 4, 5, 6] : Matrix Int).Columns →
        j < (Matrix.mk 3 [1, 2, 3, 4, 5, 6] : Matrix Int).Rows →
        (Matrix.mk 3 [1, 2, 3, 4, 5, 6] : Matrix Int).Transpose.el i j =
          (Matrix.mk 3 [1, 2, 3, 4, 5, 6] : Matrix Int).el j i) ∧
      (Matrix.mk 3 [1, 2, 3, 4, 5, 6] : Matrix Int).Transpose.Transpose =
        (Matrix.mk 3 [1, 2, 3, 4, 5, 6] : Matrix Int)) :=
  ⟨by decide, by decide, claim_C5 (Matrix.mk 3 [1, 2, 3, 4, 5, 6]) (by decide) (by decide)⟩

end LibB
